import Mathlib

/-!
Verification of the inverted-index search engine repository.

Shallow embedding of the C sources:
- `DLList` models `src/adt/doublylinkedlist.c` (merge sort on the item sequence).
- `Tok` models `src/tokenize.c` (`tokenize_string`, with an explicit allocation
  oracle standing in for `strdup`/`list_addlast` failure).
- `Hashmap` models `src/adt/hashmap.c`.
- `RBSet` models `src/adt/rbtreeset.c` (red-black tree with parent-pointer
  rebalancing, rendered with an explicit path zipper).
- `IndexSpec` models the index core of `src/adt/index.c`.  The bodies of
  `index_create` / `index_document` / `index_query` / `index_stat` in the
  repository are TODO stubs, so that component is modelled from the
  specification document instead (see the doc comments there).

C machine integers: list lengths and counts are `size_t` values that the
programs only ever increment/decrement one at a time and compare; they are
modelled as `Nat`.  Comparison functions return C `int`; modelled as `Int`
(only the sign is ever inspected).
-/

namespace DLList

variable {α : Type}

/-- `merge` from doublylinkedlist.c: merges two sorted node chains, repeatedly
picking the smaller leftmost node (`cmpfn(a,b) < 0` picks `a`, otherwise `b`);
when one chain runs out the remainder is appended. -/
def merge (cmpfn : α → α → Int) : List α → List α → List α
  | [], b => b
  | a :: as, [] => a :: as
  | a :: as, b :: bs =>
    if cmpfn a b < 0 then a :: merge cmpfn as (b :: bs)
    else b :: merge cmpfn (a :: as) bs
termination_by a b => a.length + b.length

/-- The slow/fast pointer loop of `splitlist`: counts how many times the slow
pointer advances, given the chain the fast pointer starts on. -/
def splitSteps : List α → Nat
  | _ :: _ :: fastRest => splitSteps fastRest + 1
  | _ => 0

/-- `splitlist` from doublylinkedlist.c: the slow pointer starts at the head and
the fast pointer at its right neighbour; the list is cut right after the slow
pointer's final position. -/
def splitlist (leftmost : List α) : List α × List α :=
  let cut := splitSteps leftmost.tail + 1
  (leftmost.take cut, leftmost.drop cut)

theorem two_mul_splitSteps_le (l : List α) : 2 * splitSteps l ≤ l.length := by
  match l with
  | [] => simp [splitSteps]
  | [a] => simp [splitSteps]
  | a :: b :: rest =>
    have ih := two_mul_splitSteps_le rest
    simp only [splitSteps, List.length_cons]
    omega

theorem splitlist_fst_length (l : List α) (h : 2 ≤ l.length) :
    (splitlist l).1.length < l.length := by
  have hs := two_mul_splitSteps_le l.tail
  simp only [splitlist, List.length_take, List.length_tail] at *
  omega

theorem splitlist_snd_length (l : List α) (h : 2 ≤ l.length) :
    (splitlist l).2.length < l.length := by
  simp only [splitlist, List.length_drop]
  omega

/-- `mergesort_` from doublylinkedlist.c: a chain with no right neighbour (fewer
than two nodes) is returned as is, otherwise the chain is split and the two
sorted halves merged. -/
def mergesort_ (cmpfn : α → α → Int) (l : List α) : List α :=
  if h : l.length < 2 then l
  else
    merge cmpfn (mergesort_ cmpfn (splitlist l).1) (mergesort_ cmpfn (splitlist l).2)
termination_by l.length
decreasing_by
  · exact splitlist_fst_length l (by omega)
  · exact splitlist_snd_length l (by omega)

/-- `list_sort` from doublylinkedlist.c: lists of length below two are left
untouched, otherwise the node chain is merge sorted (the subsequent fixing of
`rightmost` and the `left` links does not alter the item sequence). -/
def list_sort (cmpfn : α → α → Int) (l : List α) : List α :=
  if l.length < 2 then l else mergesort_ cmpfn l

end DLList

namespace Tok

/-- `TOKEN_SIZE_MAX` from tokenize.h. -/
def TOKEN_SIZE_MAX : Nat := 1024

/-- `offset_lim` from tokenize.c: `TOKEN_SIZE_MAX - 2`. -/
def offset_lim : Nat := TOKEN_SIZE_MAX - 2

/-- `append_token_dup` from tokenize.c.  When the built-up token (`base`, of
length `offset`) is at least `min_token_len` long, it is duplicated and
appended at the end of the list; `strdup` / `list_addlast` failure is modelled
by an allocation oracle (one `Bool` consumed per attempted duplication,
`false` = allocation failure, an exhausted oracle means success).
Returns (status, updated list, remaining oracle). -/
def append_token_dup (oracle : List Bool) (list : List (List Char)) (base : List Char)
    (min_token_len : Nat) (offset : Nat) : Int × List (List Char) × List Bool :=
  if min_token_len ≤ offset then
    match oracle with
    | ok :: rest => if ok then (0, list ++ [base], rest) else (-1, list, rest)
    | [] => (0, list ++ [base], [])
  else
    (0, list, oracle)

/-- The character loop of `tokenize_string` (`for (; status == 0; str++)`).
`base`/`offset` are the token buffer and its fill level, `list` the output
list.  The status is re-checked only at the loop head, so a failed append at a
delimiter can be overwritten by the delimiter-as-token append that follows it,
exactly as in the C.  The over-long-token branch scans ahead with a local
pointer that is never written back to `str`, so its net effect is only the
buffer reset. -/
def tokenizeLoop (min_token_len : Nat) (delimitfn : Char → Bool)
    (filterfn : Option (Char → Bool)) (transformfn : Option (Char → Char)) :
    List Char → List Char → Nat → List (List Char) → List Bool → Int × List (List Char)
  | [], base, offset, list, oracle =>
    let r := append_token_dup oracle list base min_token_len offset
    (r.1, r.2.1)
  | c :: rest, base, offset, list, oracle =>
    let is_delimiter := delimitfn c
    let r1 := if is_delimiter then append_token_dup oracle list base min_token_len offset
              else (0, list, oracle)
    let base1 := if is_delimiter then ([] : List Char) else base
    let off1 := if is_delimiter then 0 else offset
    let passes := match filterfn with | none => true | some f => f c
    if passes then
      let tc := match transformfn with | none => c | some f => f c
      let base2 := base1 ++ [tc]
      let off2 := off1 + 1
      if is_delimiter then
        let r2 := append_token_dup r1.2.2 r1.2.1 base2 min_token_len off2
        if r2.1 = 0 then tokenizeLoop min_token_len delimitfn filterfn transformfn rest [] 0 r2.2.1 r2.2.2
        else (r2.1, r2.2.1)
      else if offset_lim ≤ off2 then
        if r1.1 = 0 then tokenizeLoop min_token_len delimitfn filterfn transformfn rest [] 0 r1.2.1 r1.2.2
        else (r1.1, r1.2.1)
      else
        if r1.1 = 0 then tokenizeLoop min_token_len delimitfn filterfn transformfn rest base2 off2 r1.2.1 r1.2.2
        else (r1.1, r1.2.1)
    else
      if r1.1 = 0 then tokenizeLoop min_token_len delimitfn filterfn transformfn rest base1 off1 r1.2.1 r1.2.2
      else (r1.1, r1.2.1)

/-- The error-revert loop at the end of `tokenize_string`:
`while (list_length(list) > list_len_before) free(list_poplast(list))`. -/
def revertLoop (len_before : Nat) (l : List (List Char)) : List (List Char) :=
  if len_before < l.length then revertLoop len_before l.dropLast else l
termination_by l.length
decreasing_by
  simp only [List.length_dropLast]
  omega

/-- `tokenize_string` from tokenize.c: runs the character loop starting with an
empty token buffer, then (only when the status is negative) pops tokens from
the end of the list until the list is back to its pre-call length. -/
def tokenize_string (str : List Char) (list : List (List Char)) (min_token_len : Nat)
    (delimitfn : Char → Bool) (filterfn : Option (Char → Bool))
    (transformfn : Option (Char → Char)) (oracle : List Bool) : Int × List (List Char) :=
  let list_len_before := list.length
  let r := tokenizeLoop min_token_len delimitfn filterfn transformfn str [] 0 list oracle
  if r.1 < 0 then (r.1, revertLoop list_len_before r.2) else r

end Tok

namespace Hashmap

variable {K V : Type}

/-- A map entry (`entry_t`): key/value pair. -/
structure Entry (K V : Type) where
  key : K
  val : V
deriving DecidableEq

/-- The hash map of hashmap.c.  A bucket is the `mnode` overflow chain headed at
`buckets[i]`, in chain order.  `capacity` is `buckets.length`.  The comparison
and hash functions stored in the struct are carried as fields; `uint64_t`
hashes are modelled as `Nat` (only ever used via `% capacity`). -/
structure Map (K V : Type) where
  cmpfn : K → K → Int
  hashfn : K → Nat
  buckets : List (List (Entry K V))
  length : Nat
  rehash_threshold : Nat

/-- `N_BUCKETS_INITIAL` from hashmap.c. -/
def N_BUCKETS_INITIAL : Nat := 16

/-- `calc_rehash_threshold`: `LF_GROW (= 0.75) * capacity`, rounded down.  The
double-precision product is exact for every capacity the map ever has (powers
of two), so the floor equals `capacity * 3 / 4`. -/
def calc_rehash_threshold (capacity : Nat) : Nat := capacity * 3 / 4

/-- `map_create` from hashmap.c. -/
def map_create (cmpfn : K → K → Int) (hashfn : K → Nat) : Map K V :=
  { cmpfn := cmpfn
    hashfn := hashfn
    buckets := List.replicate N_BUCKETS_INITIAL []
    length := 0
    rehash_threshold := calc_rehash_threshold N_BUCKETS_INITIAL }

/-- `map_length` from hashmap.c. -/
def map_length (m : Map K V) : Nat := m.length

/-- The chain-walk of `map_insert`: finds the first node whose key compares
equal (`cmpfn(key, curr->entry->key) == 0`), swaps in the new entry and
returns the old one together with the updated chain; `none` if the chain holds
no equal key. -/
def chainReplace (cmpfn : K → K → Int) (e : Entry K V) :
    List (Entry K V) → Option (Entry K V × List (Entry K V))
  | [] => none
  | curr :: rest =>
    if cmpfn e.key curr.key = 0 then some (curr, e :: rest)
    else match chainReplace cmpfn e rest with
      | some (old, rest') => some (old, curr :: rest')
      | none => none

/-- The bucket-redistribution loop of `map_resize`: every node of every old
bucket (buckets in index order, chains head first) is pushed as the new head of
its new bucket. -/
def rehashAll (hashfn : K → Nat) (old : List (List (Entry K V)))
    (new_capacity : Nat) : List (List (Entry K V)) :=
  old.foldl
    (fun acc chain =>
      chain.foldl
        (fun acc e =>
          let i_new := hashfn e.key % new_capacity
          acc.set i_new (e :: acc.getD i_new []))
        acc)
    (List.replicate new_capacity [])

/-- `map_resize` from hashmap.c: doubles the bucket array, rehashes every node,
and recomputes the rehash threshold.  (The `calloc` failure path panics at the
call site and is not modelled.) -/
def map_resize (m : Map K V) (new_capacity : Nat) : Map K V :=
  { m with
    buckets := rehashAll m.hashfn m.buckets new_capacity
    rehash_threshold := calc_rehash_threshold new_capacity }

/-- `map_insert` from hashmap.c.  Walks the chain of the key's bucket; on a
comparison-equal key the entries are swapped and the old entry returned (no
length change, no resize).  Otherwise the new node becomes the chain head, the
length grows, and — when there was a collision (`head != NULL`) and the length
reached the threshold — the map is resized to twice the capacity. -/
def map_insert (m : Map K V) (key : K) (val : V) : Map K V × Option (Entry K V) :=
  let entry : Entry K V := { key := key, val := val }
  let bucket_i := m.hashfn key % m.buckets.length
  let head := m.buckets.getD bucket_i []
  match chainReplace m.cmpfn entry head with
  | some (old_entry, chain') => ({ m with buckets := m.buckets.set bucket_i chain' }, some old_entry)
  | none =>
    let m' : Map K V :=
      { m with buckets := m.buckets.set bucket_i (entry :: head), length := m.length + 1 }
    if head.isEmpty = false ∧ m.rehash_threshold ≤ m'.length then
      (map_resize m' (m.buckets.length * 2), none)
    else
      (m', none)

/-- `map_get` from hashmap.c: first entry of the key's bucket chain with
`cmpfn(node->entry->key, key) == 0`, as a borrowed entry. -/
def map_get (m : Map K V) (key : K) : Option (Entry K V) :=
  (m.buckets.getD (m.hashfn key % m.buckets.length) []).find? (fun e => m.cmpfn e.key key = 0)

end Hashmap

namespace RBSet

/-- `tnode_color_t` from rbtreeset.c. -/
inductive Color where
  | red
  | black
deriving DecidableEq

/-- A `tnode` subtree.  The sentinel `NIL` node is `nil` (its color reads as
black, see `colorOf`).  Parent pointers are not stored; the code paths that
walk them (insert rebalancing) are rendered with an explicit path zipper. -/
inductive Tree (α : Type) where
  | nil
  | node (color : Color) (left : Tree α) (elem : α) (right : Tree α)
deriving DecidableEq

variable {α : Type}

/-- Color of a node; the sentinel (`NIL`) is black. -/
def colorOf : Tree α → Color
  | .nil => .black
  | .node c _ _ _ => c

/-- Overwrite the color of a (non-sentinel) node with black
(`node->color = BLACK`). -/
def setBlack : Tree α → Tree α
  | .nil => .nil
  | .node _ l e r => .node .black l e r

/-- In-order element sequence of a subtree. -/
def inorder : Tree α → List α
  | .nil => []
  | .node _ l e r => inorder l ++ e :: inorder r

/-- Number of nodes in a subtree. -/
def size : Tree α → Nat
  | .nil => 0
  | .node _ l _ r => size l + size r + 1

/-- One step of the path from a node up to the root: the color and element of
the parent, whether the node hangs off the parent's left (`fromLeft`), and the
parent's other child.  A list of steps (innermost first) stands for the chain
of parent pointers. -/
structure Step (α : Type) where
  fromLeft : Bool
  pc : Color
  pe : α
  sib : Tree α
deriving DecidableEq

/-- Rebuild the whole tree from a subtree and its path to the root. -/
def plug (t : Tree α) : List (Step α) → Tree α
  | [] => t
  | s :: rest =>
    plug (if s.fromLeft then .node s.pc t s.pe s.sib else .node s.pc s.sib s.pe t) rest

/-- `post_insert_balance` from rbtreeset.c, on the zipper: `z` is the subtree
rooted at `curr`, the path holds its ancestors (parent first).  While the
parent is red: with a red uncle, recolor and move `curr` to the grandparent
(case 1); with a black uncle, perform the case 2/3 rotations of
`rotate_left`/`rotate_right`, fix the colors (`par->color = BLACK;
gp->color = RED`) and break.  A red parent that is the root cannot occur (the
root is kept black); that unreachable arm simply stops, as does the
unreachable sentinel `curr` in a rotation arm.  The final
`set->root->color = BLACK` is applied by the caller. -/
def post_insert_balance (z : Tree α) : List (Step α) → Tree α
  | [] => z
  | s :: rest =>
    if s.pc ≠ .red then plug z (s :: rest)
    else
      match rest with
      | [] => plug z [s]
      | g :: grest =>
        let uncle := g.sib
        if colorOf uncle = .red then
          let newPar : Tree α :=
            if s.fromLeft then .node .black z s.pe s.sib else .node .black s.sib s.pe z
          let newUnc := setBlack uncle
          let z' : Tree α :=
            if g.fromLeft then .node .red newPar g.pe newUnc else .node .red newUnc g.pe newPar
          post_insert_balance z' grest
        else
          let sub : Tree α :=
            if g.fromLeft then
              if s.fromLeft then
                /- case 3a (Left-Left): rotate_right(gp) -/
                .node .black z s.pe (.node .red s.sib g.pe uncle)
              else
                /- case 2a + 3a (Left-Right): rotate_left(par), rotate_right(gp) -/
                match z with
                | .node _ zl ze zr => .node .black (.node .red s.sib s.pe zl) ze (.node .red zr g.pe uncle)
                | .nil => plug z [s, g]
            else
              if s.fromLeft then
                /- case 2b + 3b (Right-Left): rotate_right(par), rotate_left(gp) -/
                match z with
                | .node _ zl ze zr => .node .black (.node .red uncle g.pe zl) ze (.node .red zr s.pe s.sib)
                | .nil => plug z [s, g]
              else
                /- case 3b (Right-Right): rotate_left(gp) -/
                .node .black (.node .red uncle g.pe s.sib) s.pe z
          plug sub grest

/-- The descent loop of `set_insert`: walk from `root` comparing
`cmpfn(elem, curr->elem)` (`> 0` go right, `< 0` go left) until an equal
element (swap it out and rebuild the unchanged tree shape) or a `NIL` child
(attach a red leaf there, rebalance from it, and blacken the root).  Returns
the new root together with the replaced element, if any.  The `nil` arm is
unreachable: the loop only ever recurses into non-sentinel children. -/
def insertGo (cmpfn : α → α → Int) (elem : α) : Tree α → List (Step α) → Tree α × Option α
  | .nil, path => (plug (.node .red .nil elem .nil) path, none)
  | .node c l e r, path =>
    if 0 < cmpfn elem e then
      match r with
      | .nil =>
        (setBlack (post_insert_balance (.node .red .nil elem .nil)
          ({ fromLeft := false, pc := c, pe := e, sib := l } :: path)), none)
      | .node .. =>
        insertGo cmpfn elem r ({ fromLeft := false, pc := c, pe := e, sib := l } :: path)
    else if cmpfn elem e < 0 then
      match l with
      | .nil =>
        (setBlack (post_insert_balance (.node .red .nil elem .nil)
          ({ fromLeft := true, pc := c, pe := e, sib := r } :: path)), none)
      | .node .. =>
        insertGo cmpfn elem l ({ fromLeft := true, pc := c, pe := e, sib := r } :: path)
    else
      (plug (.node c l elem r) path, some e)

/-- A `set_t`: root plus the incrementally maintained length.  The stored
`cmpfn` is carried as an explicit parameter of the operations (the claims all
concern sets sharing one comparison function, as required for the set-algebra
operations to be meaningful). -/
structure SetT (α : Type) where
  root : Tree α
  length : Nat
deriving DecidableEq

/-- `set_create` from rbtreeset.c (the comparison function is a parameter of
the operations, see `SetT`). -/
def set_create : SetT α := { root := .nil, length := 0 }

/-- `set_length` from rbtreeset.c. -/
def set_length (s : SetT α) : Nat := s.length

/-- `set_insert` from rbtreeset.c: an empty tree gets a black root (length
grows); otherwise the descent either swaps an equal element out (length
unchanged, the replaced element is returned) or attaches and rebalances a red
leaf (length grows, `NULL` — here `none` — is returned). -/
def set_insert (cmpfn : α → α → Int) (s : SetT α) (elem : α) : SetT α × Option α :=
  match s.root with
  | .nil => ({ root := .node .black .nil elem .nil, length := s.length + 1 }, none)
  | .node .. =>
    let r := insertGo cmpfn elem s.root []
    match r.2 with
    | some old => ({ root := r.1, length := s.length }, some old)
    | none => ({ root := r.1, length := s.length + 1 }, none)

/-- `node_search` from rbtreeset.c: the standard BST walk, returning the node
holding the target, or the sentinel. -/
def node_search (cmpfn : α → α → Int) (elem : α) : Tree α → Tree α
  | .nil => .nil
  | .node c l e r =>
    if 0 < cmpfn elem e then node_search cmpfn elem r
    else if cmpfn elem e < 0 then node_search cmpfn elem l
    else .node c l e r

/-- `set_get` from rbtreeset.c: the element of the found node; the sentinel's
`elem` is the null pointer, modelled as `none`. -/
def set_get (cmpfn : α → α → Int) (s : SetT α) (elem : α) : Option α :=
  match node_search cmpfn elem s.root with
  | .nil => none
  | .node _ _ e _ => some e

/-- `rec_set_copy` from rbtreeset.c: node-for-node structural copy. -/
def rec_set_copy : Tree α → Tree α
  | .nil => .nil
  | .node c l e r => .node c (rec_set_copy l) e (rec_set_copy r)

/-- `set_copy` from rbtreeset.c. -/
def set_copy (s : SetT α) : SetT α := { root := rec_set_copy s.root, length := s.length }

/-- `rec_set_merge` from rbtreeset.c: inserts every element of the tree into
the target set, right subtree first, then left subtree, then the root. -/
def rec_set_merge (cmpfn : α → α → Int) (target : SetT α) : Tree α → SetT α
  | .nil => target
  | .node _ l e r =>
    (set_insert cmpfn (rec_set_merge cmpfn (rec_set_merge cmpfn target r) l) e).1

/-- `set_union` from rbtreeset.c: copy the larger set (the operand swap guarded
by `a->cmpfn == b->cmpfn`, which always holds here) and merge the other into
the copy.  The `a != b` aliasing test cannot be expressed on values; the
general branch is modelled (merging a set into a copy of itself leaves the
same contents, so the skipped branch agrees element-wise). -/
def set_union (cmpfn : α → α → Int) (a b : SetT α) : SetT α :=
  let p := if a.length < b.length then (b, a) else (a, b)
  rec_set_merge cmpfn (set_copy p.1) p.2.root

/-- `rec_set_intersection` from rbtreeset.c: post-order walk of the lead tree,
inserting the elements found in `b` (non-null `set_get`). -/
def rec_set_intersection (cmpfn : α → α → Int) (c : SetT α) (b : SetT α) : Tree α → SetT α
  | .nil => c
  | .node _ l e r =>
    let c1 := rec_set_intersection cmpfn c b l
    let c2 := rec_set_intersection cmpfn c1 b r
    if (set_get cmpfn b e).isSome then (set_insert cmpfn c2 e).1 else c2

/-- `set_intersection` from rbtreeset.c: walk the longer set, keeping the
elements present in the other (the `a == b` fast path returns a copy with the
same contents and is subsumed by the general branch modelled here). -/
def set_intersection (cmpfn : α → α → Int) (a b : SetT α) : SetT α :=
  let p := if a.length < b.length then (b, a) else (a, b)
  rec_set_intersection cmpfn set_create p.2 p.1.root

/-- `rec_set_difference` from rbtreeset.c: post-order walk of `a`'s tree,
inserting the elements not found in `b`. -/
def rec_set_difference (cmpfn : α → α → Int) (c : SetT α) (b : SetT α) : Tree α → SetT α
  | .nil => c
  | .node _ l e r =>
    let c1 := rec_set_difference cmpfn c b l
    let c2 := rec_set_difference cmpfn c1 b r
    if (set_get cmpfn b e).isNone then (set_insert cmpfn c2 e).1 else c2

/-- `set_difference` from rbtreeset.c (the `a != b` guard only skips work whose
result would be the empty set the general branch produces anyway). -/
def set_difference (cmpfn : α → α → Int) (a b : SetT α) : SetT α :=
  rec_set_difference cmpfn set_create b a.root

/-- `next_node_inorder` from rbtreeset.c, the Morris in-order step.  The C code
temporarily threads the in-order predecessor's right pointer back up to the
current node — a cyclic shape no inductive tree can hold — and follows the
thread back after the left subtree is exhausted.  Its purely functional
rendering: when the current node has a left child, descending into the left
subtree with the thread in place is the same as continuing on the
right-rotated tree (the predecessor's new right pointer carries exactly the
current node and its right subtree); when there is no left child, the node is
visited and iteration resumes at its right child. -/
def leftSize : Tree α → Nat
  | .nil => 0
  | .node _ l _ _ => size l

def next_node_inorder : Tree α → Option (α × Tree α)
  | .nil => none
  | .node _ .nil e r => some (e, r)
  | .node c (.node lc ll le lr) e r => next_node_inorder (.node lc ll le (.node c lr e r))
termination_by t => leftSize t
decreasing_by
  simp only [leftSize, size]
  omega

theorem next_node_inorder_size {t : Tree α} {e : α} {t' : Tree α}
    (h : next_node_inorder t = some (e, t')) : size t' < size t := by
  match t with
  | .nil => simp [next_node_inorder] at h
  | .node c .nil e0 r =>
    simp only [next_node_inorder, Option.some.injEq, Prod.mk.injEq] at h
    simp [← h.2, size]
  | .node c (.node lc ll le lr) e0 r =>
    rw [next_node_inorder] at h
    have ih := next_node_inorder_size h
    simp only [size] at ih ⊢
    omega
termination_by leftSize t
decreasing_by
  simp only [leftSize, size]
  omega

/-- The element sequence produced by exhausting the iterator: what repeated
`set_next` calls return between `set_createiter` and `set_hasnext` turning
false. -/
def iterSeq (t : Tree α) : List α :=
  match h : next_node_inorder t with
  | none => []
  | some (e, t') => e :: iterSeq t'
termination_by size t
decreasing_by
  exact next_node_inorder_size h

/-- The element the descent of `set_insert` would replace / `node_search` would
find, on a bare subtree. -/
def searchOpt (cmpfn : α → α → Int) (elem : α) (t : Tree α) : Option α :=
  match node_search cmpfn elem t with
  | .nil => none
  | .node _ _ e _ => some e

/-- List-level rendering of one BST insertion: walk the ascending element
sequence past every smaller element, then either insert before the first
larger element or swap out the first comparison-equal one.  Used to
characterize what `set_insert` does to the in-order sequence. -/
def linsert (cmpfn : α → α → Int) (x : α) : List α → List α
  | [] => [x]
  | y :: ys =>
    if 0 < cmpfn x y then y :: linsert cmpfn x ys
    else if cmpfn x y < 0 then x :: y :: ys
    else x :: ys

/-- The in-order sequence of the whole tree, as a function of the in-order
sequence of the subtree a path points at. -/
def ctxIn : List (Step α) → List α → List α
  | [], xs => xs
  | s :: rest, xs =>
    ctxIn rest (if s.fromLeft then xs ++ s.pe :: inorder s.sib else inorder s.sib ++ s.pe :: xs)

/-- A sequence of `set_insert` calls starting from a freshly created set. -/
def insertAll (cmpfn : α → α → Int) (xs : List α) : SetT α :=
  xs.foldl (fun s x => (set_insert cmpfn s x).1) set_create

/-- One representative per comparison-equivalence class of the inserted
elements, in order of first insertion. -/
def distinctReps (cmpfn : α → α → Int) (xs : List α) : List α :=
  xs.foldl (fun acc x => if acc.any (fun y => cmpfn x y == 0) then acc else x :: acc) []

/-- The number of pairwise-inequivalent elements among the inserted ones. -/
def countDistinct (cmpfn : α → α → Int) (xs : List α) : Nat :=
  (distinctReps cmpfn xs).length

end RBSet

namespace IndexSpec

/-!
The bodies of `index_create`, `index_document`, `index_query` and `index_stat`
in `src/adt/index.c` are TODO stubs ("the one genuinely hard, unimplemented
part of the system", spec §1); every definition in this namespace is therefore
modelled from the specification document (spec §3, §4.1–§4.4), not from C
code.  Scores are term frequencies and sums thereof (spec §4.3), hence natural
numbers; the `double` in `query_result_t` introduces no rounding for these
values.
-/

/-- Modelled from the spec: `QueryNode`, the expression tree built by the
query parsing stage (spec §3, "a tagged variant over
Term / And / Or / Not"). -/
inductive QueryNode where
  | term (t : String)
  | and (l r : QueryNode)
  | or (l r : QueryNode)
  | not (c : QueryNode)
deriving DecidableEq

/-- Modelled from the spec: a `{doc_name, score}` query result (spec §3,
`QueryResult`). -/
structure QueryResult where
  doc_name : String
  score : Nat
deriving DecidableEq

/-- Modelled from the spec: the Index state — the set of known document names
and the Term Dictionary mapping each term to its Posting (document name →
occurrence count), both kept as association lists in first-arrival order
(spec §3). -/
structure SpecIndex where
  docs : List String
  postings : List (String × List (String × Nat))
deriving DecidableEq

/-- Association-list lookup (the Term Dictionary / Posting maps of spec §3). -/
def alistGet {β : Type} (l : List (String × β)) (k : String) : Option β :=
  (l.find? (fun p => p.1 == k)).map (fun p => p.2)

/-- Association-list update of an existing key. -/
def alistSet {β : Type} (l : List (String × β)) (k : String) (v : β) : List (String × β) :=
  l.map (fun p => if p.1 == k then (k, v) else p)

/-- Modelled from the spec: `index_create` (spec §3, "Created empty"). -/
def index_create : SpecIndex := { docs := [], postings := [] }

/-- Modelled from the spec: one term of the ingestion loop of
`index_document` (spec §4.1): a term with no Posting gets a fresh one with the
document at count 1; otherwise the document's counter inside the Posting is
incremented (created at 1 if absent). -/
def postingIncr (ps : List (String × List (String × Nat))) (t doc : String) :
    List (String × List (String × Nat)) :=
  match alistGet ps t with
  | none => ps ++ [(t, [(doc, 1)])]
  | some m =>
    match alistGet m doc with
    | none => alistSet ps t (m ++ [(doc, 1)])
    | some n => alistSet ps t (alistSet m doc (n + 1))

/-- Modelled from the spec: `index_document` (spec §4.1): the document name is
inserted into `documents` if absent (the document count "increments exactly
once per distinct name, even if index_document is called again with a
duplicate name"), and every term's Posting counter for this document is
incremented. -/
def index_document (idx : SpecIndex) (doc_name : String) (terms : List String) : SpecIndex :=
  { docs := if doc_name ∈ idx.docs then idx.docs else idx.docs ++ [doc_name]
    postings := terms.foldl (fun ps t => postingIncr ps t doc_name) idx.postings }

/-- Modelled from the spec: `index_stat` reports `documents.length` and
`terms.length` (spec §4.4). -/
def index_stat (idx : SpecIndex) : Nat × Nat := (idx.docs.length, idx.postings.length)

/-- The operator tokens of the query language (spec §3, `QueryToken`). -/
def isOperatorTok (t : String) : Bool :=
  t == "&" || t == "|" || t == "!" || t == "(" || t == ")"

mutual

/-- Modelled from the spec: `OrExpr := AndExpr ('|' AndExpr)*` of the query
grammar (spec §4.2), with left-associative folding.  The token stream is the
list of query-token strings handed to `index_query`; the fuel argument bounds
the recursion depth and is chosen large enough at the top level. -/
def parseOr : Nat → List String → Except String (QueryNode × List String)
  | 0, _ => .error ("query too deeply nested")
  | fuel + 1, toks => do
    let (q, rest) ← parseAnd fuel toks
    parseOrRest fuel q rest

/-- The `('|' AndExpr)*` loop of `OrExpr`. -/
def parseOrRest : Nat → QueryNode → List String → Except String (QueryNode × List String)
  | 0, _, _ => .error ("query too deeply nested")
  | fuel + 1, q, toks =>
    match toks with
    | "|" :: rest => do
      let (q2, rest2) ← parseAnd fuel rest
      parseOrRest fuel (QueryNode.or q q2) rest2
    | _ => .ok (q, toks)

/-- Modelled from the spec: `AndExpr := NotExpr ('&' NotExpr)*` (spec §4.2). -/
def parseAnd : Nat → List String → Except String (QueryNode × List String)
  | 0, _ => .error ("query too deeply nested")
  | fuel + 1, toks => do
    let (q, rest) ← parseNot fuel toks
    parseAndRest fuel q rest

/-- The `('&' NotExpr)*` loop of `AndExpr`. -/
def parseAndRest : Nat → QueryNode → List String → Except String (QueryNode × List String)
  | 0, _, _ => .error ("query too deeply nested")
  | fuel + 1, q, toks =>
    match toks with
    | "&" :: rest => do
      let (q2, rest2) ← parseNot fuel rest
      parseAndRest fuel (QueryNode.and q q2) rest2
    | _ => .ok (q, toks)

/-- Modelled from the spec: `NotExpr := '!' NotExpr | Atom` (spec §4.2). -/
def parseNot : Nat → List String → Except String (QueryNode × List String)
  | 0, _ => .error ("query too deeply nested")
  | fuel + 1, toks =>
    match toks with
    | "!" :: rest => do
      let (q, rest2) ← parseNot fuel rest
      .ok (QueryNode.not q, rest2)
    | _ => parseAtom fuel toks

/-- Modelled from the spec: `Atom := TERM | '(' Expr ')'` (spec §4.2).  A
missing operand or an unmatched `(` fails with a diagnostic naming the
offending token and the expected construct. -/
def parseAtom : Nat → List String → Except String (QueryNode × List String)
  | 0, _ => .error ("query too deeply nested")
  | fuel + 1, toks =>
    match toks with
    | [] => .error ("expected a term or parenthesized expression, found end of query")
    | tok :: rest =>
      if tok == "(" then do
        let (q, rest2) ← parseOr fuel rest
        match rest2 with
        | ")" :: rest3 => .ok (q, rest3)
        | _ => .error ("unmatched opening parenthesis: expected closing parenthesis")
      else if isOperatorTok tok then
        .error ("expected a term or parenthesized expression, found operator " ++ tok)
      else
        .ok (QueryNode.term tok, rest)

end

/-- Modelled from the spec: the whole query parsing stage of `index_query`
(spec §4.2): an empty query is rejected, and after `Expr` any leftover token
(an unmatched `)` or a term adjacent to the previous expression with no
operator between them) is rejected with a diagnostic. -/
def parseQuery (query_tokens : List String) : Except String QueryNode :=
  match query_tokens with
  | [] => .error ("empty query")
  | _ => do
    let (q, rest) ← parseOr (query_tokens.length * 4 + 4) query_tokens
    match rest with
    | [] => .ok q
    | tok :: _ => .error ("unexpected token after end of expression: " ++ tok)

/-- Modelled from the spec: the post-order evaluation of the expression tree
(spec §4.3), per document: a term matches the documents of its Posting with
their frequency as score (an absent term matches nothing); `And` matches the
intersection, scores summed; `Or` the union, with the sum of whichever sides
matched; `Not` matches all indexed documents not matched by the operand, at
baseline score 0. -/
def evalScore (idx : SpecIndex) : QueryNode → String → Option Nat
  | .term t, d =>
    match alistGet idx.postings t with
    | none => none
    | some m => alistGet m d
  | .and l r, d =>
    match evalScore idx l d, evalScore idx r d with
    | some a, some b => some (a + b)
    | _, _ => none
  | .or l r, d =>
    match evalScore idx l d, evalScore idx r d with
    | some a, some b => some (a + b)
    | some a, none => some a
    | none, some b => some b
    | none, none => none
  | .not c, d =>
    match evalScore idx c d with
    | some _ => none
    | none => if d ∈ idx.docs then some 0 else none

/-- Modelled from the spec: the result ordering — score descending, ties
broken by document name ascending (spec §4.3). -/
def resultsOrder (a b : QueryResult) : Prop :=
  b.score < a.score ∨ (a.score = b.score ∧ a.doc_name ≤ b.doc_name)

instance : DecidableRel resultsOrder := fun a b => by
  unfold resultsOrder
  infer_instance

/-- Modelled from the spec: assembling the final result list of `index_query`
(spec §4.3): one `{doc_name, score}` entry per matched indexed document,
sorted by score descending with ties by name ascending. -/
def assemble (idx : SpecIndex) (q : QueryNode) : List QueryResult :=
  List.insertionSort resultsOrder
    (idx.docs.filterMap (fun d => (evalScore idx q d).map (fun s => ⟨d, s⟩)))

/-- Modelled from the spec: `index_query` (spec §4.2–§4.3, §6): a malformed
token stream yields the diagnostic (the NULL return with `errbuf` set), a
well-formed one yields the assembled result list, empty when nothing
matched but never NULL. -/
def index_query (idx : SpecIndex) (query_tokens : List String) :
    Except String (List QueryResult) :=
  match parseQuery query_tokens with
  | .error e => .error e
  | .ok q => .ok (assemble idx q)

/-- The NULL-return-with-diagnostic outcome of `index_query`: the query was
rejected and the error buffer holds a non-empty message. -/
def isRejectedWithDiagnostic : Except String (List QueryResult) → Bool
  | .error e => decide (e ≠ "")
  | .ok _ => false

/-- The non-NULL (possibly empty result list) outcome of `index_query`. -/
def isAccepted : Except String (List QueryResult) → Bool
  | .error _ => false
  | .ok _ => true

end IndexSpec

/-! ## Theorems about the spec-modelled index core (claims C1 to C5) -/

namespace IndexSpec

instance : IsTrans QueryResult resultsOrder := by
  constructor
  intro a b c hab hbc
  rcases hab with hab | ⟨hab, habn⟩ <;> rcases hbc with hbc | ⟨hbc, hbcn⟩
  · exact Or.inl (hbc.trans hab)
  · exact Or.inl (hbc ▸ hab)
  · exact Or.inl (hab ▸ hbc)
  · exact Or.inr ⟨hab.trans hbc, habn.trans hbcn⟩

instance : IsTotal QueryResult resultsOrder := by
  constructor
  intro a b
  rcases Nat.lt_trichotomy a.score b.score with h | h | h
  · exact Or.inr (Or.inl h)
  · rcases le_total a.doc_name b.doc_name with hn | hn
    · exact Or.inl (Or.inr ⟨h, hn⟩)
    · exact Or.inr (Or.inr ⟨h.symm, hn⟩)
  · exact Or.inl (Or.inl h)

/-- C1: on success (including zero matches) `index_query` returns a result
list (non-NULL by construction of the success case) sorted by score
descending with ties broken by document name ascending. -/
theorem index_query_results_sorted (idx : SpecIndex) (toks : List String)
    (l : List QueryResult) (h : index_query idx toks = .ok l) :
    List.Sorted resultsOrder l := by
  unfold index_query at h
  cases hp : parseQuery toks with
  | error e => rw [hp] at h; exact absurd h (by simp)
  | ok q =>
    rw [hp] at h
    simp only [Except.ok.injEq] at h
    exact h ▸ List.sorted_insertionSort resultsOrder _

/-- Witness for C1: a concrete well-formed query on the empty index succeeds
with the empty (but non-NULL) result list, which is sorted. -/
theorem index_query_results_sorted_witness :
    index_query index_create ["x"] = .ok [] ∧
      List.Sorted resultsOrder ([] : List QueryResult) :=
  ⟨by rfl, index_query_results_sorted index_create ["x"] [] (by rfl)⟩

/-- C2: for every index, the malformed token streams "term &", "( term",
"& term" and the empty query are rejected with a non-empty diagnostic, while
"( a & b ) | ! c" is accepted. -/
theorem index_query_malformed_rejected (idx : SpecIndex) :
    isRejectedWithDiagnostic (index_query idx ["term", "&"]) = true ∧
    isRejectedWithDiagnostic (index_query idx ["(", "term"]) = true ∧
    isRejectedWithDiagnostic (index_query idx ["&", "term"]) = true ∧
    isRejectedWithDiagnostic (index_query idx []) = true ∧
    isAccepted (index_query idx ["(", "a", "&", "b", ")", "|", "!", "c"]) = true :=
  ⟨rfl, rfl, rfl, rfl, rfl⟩

theorem evalScore_and (idx : SpecIndex) (l r : QueryNode) (d : String) :
    evalScore idx (QueryNode.and l r) d =
      (match evalScore idx l d, evalScore idx r d with
        | some a, some b => some (a + b)
        | _, _ => none) := rfl

theorem evalScore_or (idx : SpecIndex) (l r : QueryNode) (d : String) :
    evalScore idx (QueryNode.or l r) d =
      (match evalScore idx l d, evalScore idx r d with
        | some a, some b => some (a + b)
        | some a, none => some a
        | none, some b => some b
        | none, none => none) := rfl

theorem evalScore_not (idx : SpecIndex) (c : QueryNode) (d : String) :
    evalScore idx (QueryNode.not c) d =
      (match evalScore idx c d with
        | some _ => none
        | none => if d ∈ idx.docs then some 0 else none) := rfl

/-- Membership in the result-name list of an assembled query: exactly the
indexed documents the query evaluates to a score on. -/
theorem mem_assemble_names (idx : SpecIndex) (q : QueryNode) (d : String) :
    d ∈ (assemble idx q).map QueryResult.doc_name ↔
      d ∈ idx.docs ∧ (evalScore idx q d).isSome := by
  unfold assemble
  rw [((List.perm_insertionSort resultsOrder _).map QueryResult.doc_name).mem_iff]
  simp only [List.map_filterMap, List.mem_filterMap]
  constructor
  · rintro ⟨d', hd', hmap⟩
    rcases ho : evalScore idx q d' with _ | s
    · rw [ho] at hmap; simp at hmap
    · rw [ho] at hmap
      simp only [Option.map_some', Option.some.injEq] at hmap
      obtain rfl : d' = d := hmap
      exact ⟨hd', by rw [ho]; rfl⟩
  · rintro ⟨hd, hsome⟩
    rcases ho : evalScore idx q d with _ | s
    · rw [ho] at hsome; simp at hsome
    · exact ⟨d, hd, by rw [ho]; rfl⟩

/-- C3: the boolean set algebra of the evaluator — `A & B` results are a
subset of `A | B` results, `A & !A` matches nothing, and `A | !A` matches
exactly the full set of indexed documents. -/
theorem index_query_algebra (idx : SpecIndex) (A B : String) :
    ((assemble idx (QueryNode.and (.term A) (.term B))).map QueryResult.doc_name ⊆
      (assemble idx (QueryNode.or (.term A) (.term B))).map QueryResult.doc_name) ∧
    assemble idx (QueryNode.and (.term A) (QueryNode.not (.term A))) = [] ∧
    (∀ d, d ∈ (assemble idx (QueryNode.or (.term A) (QueryNode.not (.term A)))).map
        QueryResult.doc_name ↔ d ∈ idx.docs) := by
  refine ⟨?_, ?_, ?_⟩
  · intro d hd
    rw [mem_assemble_names] at hd ⊢
    refine ⟨hd.1, ?_⟩
    have h2 := hd.2
    rw [evalScore_and] at h2
    rw [evalScore_or]
    rcases hA : evalScore idx (QueryNode.term A) d with _ | a <;>
      rcases hB : evalScore idx (QueryNode.term B) d with _ | b <;>
        simp_all
  · unfold assemble
    have hnil : idx.docs.filterMap
        (fun d => (evalScore idx (QueryNode.and (.term A) (QueryNode.not (.term A))) d).map
          (fun s => (⟨d, s⟩ : QueryResult))) = [] := by
      rw [List.filterMap_eq_nil_iff]
      intro d _
      rw [evalScore_and, evalScore_not]
      rcases hA : evalScore idx (QueryNode.term A) d with _ | a
      · by_cases hdoc : d ∈ idx.docs <;> simp [hdoc]
      · simp
    rw [hnil]
    rfl
  · intro d
    rw [mem_assemble_names]
    constructor
    · exact fun h => h.1
    · intro hd
      refine ⟨hd, ?_⟩
      rw [evalScore_or, evalScore_not]
      rcases hA : evalScore idx (QueryNode.term A) d with _ | a <;> simp [hd]

/-- Witness for C3: on a concrete one-document index, the full-set equality
for `a | !a` puts the document in the result names. -/
theorem index_query_algebra_witness :
    "doc1" ∈ (assemble (index_document index_create "doc1" ["x"])
      (QueryNode.or (.term "a") (QueryNode.not (.term "a")))).map QueryResult.doc_name :=
  ((index_query_algebra (index_document index_create "doc1" ["x"]) "a" "b").2.2 "doc1").mpr
    (by decide)

/-- C4: the two-document scenario of the spec — after indexing
doc1 = [cat, dog] and doc2 = [dog, dog, bird], `index_stat` reports 2
documents and 3 distinct terms. -/
theorem index_stat_two_docs_scenario :
    index_stat (index_document (index_document index_create "doc1" ["cat", "dog"])
      "doc2" ["dog", "dog", "bird"]) = (2, 3) := by
  decide

theorem alistSet_length {β : Type} (l : List (String × β)) (k : String) (v : β) :
    (alistSet l k v).length = l.length :=
  List.length_map l _

theorem postingIncr_length_le (ps : List (String × List (String × Nat))) (t doc : String) :
    ps.length ≤ (postingIncr ps t doc).length := by
  unfold postingIncr
  split
  · simp
  · split <;> simp [alistSet_length]

theorem foldl_postingIncr_length_le (doc : String) (terms : List String) :
    ∀ ps : List (String × List (String × Nat)),
      ps.length ≤ (terms.foldl (fun ps t => postingIncr ps t doc) ps).length := by
  induction terms with
  | nil => intro ps; simp
  | cons t rest ih =>
    intro ps
    exact le_trans (postingIncr_length_le ps t doc) (ih (postingIncr ps t doc))

/-- Counterexample to C5 as stated: indexing the same document name twice
leaves `n_docs` at 1 after the second call, not at the previous value plus 1
(a duplicate name is accumulated into the existing document, spec §4.1). -/
theorem index_document_duplicate_name_counterexample :
    (index_stat (index_document (index_document index_create "d" []) "d" [])).1 ≠
      (index_stat (index_document index_create "d" [])).1 + 1 := by
  decide

/-- C5 (amended): after `index_document`, `n_terms` is non-decreasing, and
`n_docs` grows by exactly 1 when the document name is new and is unchanged
when the name was already indexed. -/
theorem index_document_stat_monotone (idx : SpecIndex) (doc_name : String)
    (terms : List String) :
    (index_stat idx).2 ≤ (index_stat (index_document idx doc_name terms)).2 ∧
    (index_stat (index_document idx doc_name terms)).1 =
      (if doc_name ∈ idx.docs then (index_stat idx).1 else (index_stat idx).1 + 1) := by
  constructor
  · exact foldl_postingIncr_length_le doc_name terms idx.postings
  · unfold index_document index_stat
    by_cases h : doc_name ∈ idx.docs <;> simp [h]

end IndexSpec

/-! ## Theorems about the linked-list merge sort (claim C9) -/

namespace DLList

variable {α : Type}

theorem merge_perm (cmpfn : α → α → Int) :
    ∀ a b : List α, List.Perm (merge cmpfn a b) (a ++ b)
  | [], b => by rw [merge]; simp
  | a :: as, [] => by rw [merge]; simp
  | a :: as, b :: bs => by
    rw [merge]
    split
    · exact (merge_perm cmpfn as (b :: bs)).cons a
    · exact ((merge_perm cmpfn (a :: as) bs).cons b).trans List.perm_middle.symm
termination_by a b => a.length + b.length

theorem mem_merge (cmpfn : α → α → Int) (a b : List α) (x : α) :
    x ∈ merge cmpfn a b ↔ x ∈ a ∨ x ∈ b := by
  rw [(merge_perm cmpfn a b).mem_iff, List.mem_append]

theorem merge_sorted (cmpfn : α → α → Int)
    (hflip : ∀ x y, 0 ≤ cmpfn x y → cmpfn y x ≤ 0)
    (htrans : ∀ x y z, cmpfn x y ≤ 0 → cmpfn y z ≤ 0 → cmpfn x z ≤ 0) :
    ∀ a b : List α, List.Pairwise (fun x y => cmpfn x y ≤ 0) a →
      List.Pairwise (fun x y => cmpfn x y ≤ 0) b →
      List.Pairwise (fun x y => cmpfn x y ≤ 0) (merge cmpfn a b)
  | [], b, _, hb => by rw [merge]; exact hb
  | a :: as, [], ha, _ => by rw [merge]; exact ha
  | a :: as, b :: bs, ha, hb => by
    rw [merge]
    split
    · rename_i hab
      rw [List.pairwise_cons]
      refine ⟨?_, merge_sorted cmpfn hflip htrans as (b :: bs)
        (List.pairwise_cons.mp ha).2 hb⟩
      intro x hx
      rcases (mem_merge cmpfn as (b :: bs) x).mp hx with hxa | hxb
      · exact (List.pairwise_cons.mp ha).1 x hxa
      · rcases List.mem_cons.mp hxb with rfl | hxbs
        · exact le_of_lt hab
        · exact htrans a b x (le_of_lt hab) ((List.pairwise_cons.mp hb).1 x hxbs)
    · rename_i hab
      rw [List.pairwise_cons]
      have hba : cmpfn b a ≤ 0 := hflip a b (by omega)
      refine ⟨?_, merge_sorted cmpfn hflip htrans (a :: as) bs ha
        (List.pairwise_cons.mp hb).2⟩
      intro x hx
      rcases (mem_merge cmpfn (a :: as) bs x).mp hx with hxa | hxbs
      · rcases List.mem_cons.mp hxa with rfl | hxas
        · exact hba
        · exact htrans b a x hba ((List.pairwise_cons.mp ha).1 x hxas)
      · exact (List.pairwise_cons.mp hb).1 x hxbs
termination_by a b => a.length + b.length

theorem mergesort_perm (cmpfn : α → α → Int) (l : List α) :
    List.Perm (mergesort_ cmpfn l) l := by
  rw [mergesort_]
  split
  · exact List.Perm.refl l
  · rename_i h
    have h1 := mergesort_perm cmpfn (splitlist l).1
    have h2 := mergesort_perm cmpfn (splitlist l).2
    refine ((merge_perm cmpfn _ _).trans (h1.append h2)).trans ?_
    have hsplit : (splitlist l).1 ++ (splitlist l).2 = l := by
      simp only [splitlist]
      exact List.take_append_drop _ l
    rw [hsplit]
termination_by l.length
decreasing_by
  · exact splitlist_fst_length l (by omega)
  · exact splitlist_snd_length l (by omega)

theorem mergesort_sorted (cmpfn : α → α → Int)
    (hflip : ∀ x y, 0 ≤ cmpfn x y → cmpfn y x ≤ 0)
    (htrans : ∀ x y z, cmpfn x y ≤ 0 → cmpfn y z ≤ 0 → cmpfn x z ≤ 0)
    (l : List α) : List.Pairwise (fun x y => cmpfn x y ≤ 0) (mergesort_ cmpfn l) := by
  rw [mergesort_]
  split
  · rename_i h
    match l, h with
    | [], _ => exact List.Pairwise.nil
    | [a], _ => exact List.pairwise_singleton _ a
  · rename_i h
    exact merge_sorted cmpfn hflip htrans _ _
      (mergesort_sorted cmpfn hflip htrans (splitlist l).1)
      (mergesort_sorted cmpfn hflip htrans (splitlist l).2)
termination_by l.length
decreasing_by
  · exact splitlist_fst_length l (by omega)
  · exact splitlist_snd_length l (by omega)

/-- C9: when the comparison function is a total order (sign-antisymmetric and
transitive), `list_sort` produces a permutation of the original item sequence
(same length, same multiset) in ascending comparison order, and leaves a list
of fewer than two items untouched. -/
theorem list_sort_correct (cmpfn : α → α → Int)
    (hflip : ∀ x y, 0 ≤ cmpfn x y → cmpfn y x ≤ 0)
    (htrans : ∀ x y z, cmpfn x y ≤ 0 → cmpfn y z ≤ 0 → cmpfn x z ≤ 0)
    (l : List α) :
    List.Perm (list_sort cmpfn l) l ∧
    (list_sort cmpfn l).length = l.length ∧
    List.Pairwise (fun x y => cmpfn x y ≤ 0) (list_sort cmpfn l) ∧
    (l.length < 2 → list_sort cmpfn l = l) := by
  unfold list_sort
  split
  · rename_i h
    refine ⟨List.Perm.refl l, rfl, ?_, fun _ => rfl⟩
    match l, h with
    | [], _ => exact List.Pairwise.nil
    | [a], _ => exact List.pairwise_singleton _ a
  · rename_i h
    exact ⟨mergesort_perm cmpfn l, (mergesort_perm cmpfn l).length_eq,
      mergesort_sorted cmpfn hflip htrans l, fun hlt => absurd hlt h⟩

/-- Witness for C9: sorting a concrete three-element integer list under
subtraction as comparison. -/
theorem list_sort_correct_witness :
    List.Pairwise (fun x y : Int => (fun a b : Int => a - b) x y ≤ 0)
      (list_sort (fun a b : Int => a - b) [3, 1, 2]) ∧
    List.Perm (list_sort (fun a b : Int => a - b) [3, 1, 2]) [3, 1, 2] :=
  have hflip : ∀ x y : Int, 0 ≤ (fun a b : Int => a - b) x y →
      (fun a b : Int => a - b) y x ≤ 0 := by
    intro x y h
    simp only at h ⊢
    omega
  have htrans : ∀ x y z : Int, (fun a b : Int => a - b) x y ≤ 0 →
      (fun a b : Int => a - b) y z ≤ 0 → (fun a b : Int => a - b) x z ≤ 0 := by
    intro x y z h1 h2
    simp only at h1 h2 ⊢
    omega
  have h := list_sort_correct (fun a b : Int => a - b) hflip htrans [3, 1, 2]
  ⟨h.2.2.1, h.1⟩

end DLList

/-! ## Theorems about the tokenizer (claim C10) -/

namespace Tok

theorem append_token_dup_ext (oracle : List Bool) (list : List (List Char))
    (base : List Char) (ml off : Nat) :
    ∃ ext, (append_token_dup oracle list base ml off).2.1 = list ++ ext := by
  unfold append_token_dup
  split
  · match oracle with
    | [] => exact ⟨[base], rfl⟩
    | ok :: rest =>
      by_cases hok : ok = true
      · exact ⟨[base], by simp [hok]⟩
      · exact ⟨[], by simp [hok]⟩
  · exact ⟨[], by simp⟩

theorem ext_trans {l1 l2 l3 : List (List Char)} (h12 : ∃ e, l2 = l1 ++ e)
    (h23 : ∃ e, l3 = l2 ++ e) : ∃ e, l3 = l1 ++ e := by
  obtain ⟨a, ha⟩ := h12
  obtain ⟨b, hb⟩ := h23
  exact ⟨a ++ b, by rw [hb, ha, List.append_assoc]⟩

theorem tokenizeLoop_ext (ml : Nat) (df : Char → Bool) (ff : Option (Char → Bool))
    (tf : Option (Char → Char)) :
    ∀ (str base : List Char) (off : Nat) (list : List (List Char)) (oracle : List Bool),
      ∃ ext, (tokenizeLoop ml df ff tf str base off list oracle).2 = list ++ ext
  | [], base, off, list, oracle => by
    rw [tokenizeLoop.eq_def]
    exact append_token_dup_ext oracle list base ml off
  | c :: rest, base, off, list, oracle => by
    rw [tokenizeLoop.eq_def]
    simp only []
    by_cases hdel : df c = true
    · simp only [hdel, if_true]
      split
      · -- delimiter, filter passes
        split
        · -- second append succeeded, loop continues
          exact ext_trans
            (ext_trans (append_token_dup_ext oracle list base ml off)
              (append_token_dup_ext _ _ _ _ _))
            (tokenizeLoop_ext ml df ff tf rest _ _ _ _)
        · -- second append failed, loop exits
          exact ext_trans (append_token_dup_ext oracle list base ml off)
            (append_token_dup_ext _ _ _ _ _)
      · -- delimiter, filter rejects the character
        split
        · exact ext_trans (append_token_dup_ext oracle list base ml off)
            (tokenizeLoop_ext ml df ff tf rest _ _ _ _)
        · exact append_token_dup_ext oracle list base ml off
    · simp only [hdel, if_false, Bool.not_eq_true] at *
      simp only [hdel, Bool.false_eq_true, if_false]
      split
      · split
        · exact tokenizeLoop_ext ml df ff tf rest _ _ _ _
        · exact tokenizeLoop_ext ml df ff tf rest _ _ _ _
      · exact tokenizeLoop_ext ml df ff tf rest _ _ _ _

theorem revertLoop_append (l0 ext : List (List Char)) :
    revertLoop l0.length (l0 ++ ext) = l0 := by
  induction ext using List.reverseRecOn with
  | nil =>
    rw [List.append_nil, revertLoop]
    simp
  | append_singleton ys y ih =>
    rw [revertLoop]
    have hlt : l0.length < (l0 ++ (ys ++ [y])).length := by simp
    rw [if_pos hlt]
    have hd : (l0 ++ (ys ++ [y])).dropLast = l0 ++ ys := by
      rw [← List.append_assoc]
      exact List.dropLast_concat
    rw [hd, ih]

/-- C10: whenever `tokenize_string` returns a negative status, the output list
is handed back exactly as it was before the call — every token appended during
the failed call has been popped off its end again. -/
theorem tokenize_string_error_restores (str : List Char) (list : List (List Char))
    (ml : Nat) (df : Char → Bool) (ff : Option (Char → Bool))
    (tf : Option (Char → Char)) (oracle : List Bool)
    (h : (tokenize_string str list ml df ff tf oracle).1 < 0) :
    (tokenize_string str list ml df ff tf oracle).2 = list := by
  unfold tokenize_string at h ⊢
  simp only [] at h ⊢
  obtain ⟨ext, hext⟩ := tokenizeLoop_ext ml df ff tf str [] 0 list oracle
  split at h
  · rename_i hneg
    rw [if_pos hneg]
    simp only []
    rw [hext]
    exact revertLoop_append list ext
  · rename_i hpos
    exact absurd h hpos

/-- Witness for C10: a concrete run in which the one allocation fails; the
status is negative and the list comes back unchanged. -/
theorem tokenize_string_error_restores_witness :
    (tokenize_string [Char.ofNat 97] [[Char.ofNat 120]] 1 (fun _ => false) none none
      [false]).1 < 0 ∧
    (tokenize_string [Char.ofNat 97] [[Char.ofNat 120]] 1 (fun _ => false) none none
      [false]).2 = [[Char.ofNat 120]] :=
  ⟨by decide,
    tokenize_string_error_restores [Char.ofNat 97] [[Char.ofNat 120]] 1 (fun _ => false)
      none none [false] (by decide)⟩

end Tok

/-! ## Theorems about the red-black tree set (claims C6 to C8) -/

namespace RBSet

variable {α : Type}

theorem cmp_zero_symm {cmpfn : α → α → Int}
    (hflip : ∀ x y, cmpfn x y < 0 ↔ 0 < cmpfn y x) (x y : α) :
    cmpfn x y = 0 ↔ cmpfn y x = 0 := by
  have h1 := hflip x y
  have h2 := hflip y x
  omega

theorem inorder_setBlack (t : Tree α) : inorder (setBlack t) = inorder t := by
  cases t <;> rfl

theorem inorder_plug : ∀ (p : List (Step α)) (t : Tree α),
    inorder (plug t p) = ctxIn p (inorder t)
  | [], t => rfl
  | s :: rest, t => by
    rw [plug, ctxIn]
    by_cases hs : s.fromLeft <;>
      simp [hs, inorder_plug rest, inorder]

theorem inorder_post_insert_balance : ∀ (z : Tree α) (p : List (Step α)),
    inorder (post_insert_balance z p) = ctxIn p (inorder z)
  | z, [] => by rw [post_insert_balance, ctxIn]
  | z, [s] => by
    rw [post_insert_balance]
    split
    · rw [inorder_plug]
    · rw [inorder_plug]
  | z, s :: g :: grest => by
    rw [post_insert_balance]
    split
    · rw [inorder_plug]
    · rw [ctxIn, ctxIn]
      simp only []
      repeat' split
      all_goals first
        | (rw [inorder_post_insert_balance _ grest]
           exact congrArg (ctxIn grest) (by
             simp [*, inorder, inorder_setBlack, List.append_assoc]))
        | (rw [inorder_plug]
           exact congrArg (ctxIn grest) (by
             simp [*, inorder, inorder_plug, ctxIn, List.append_assoc]))
termination_by z p => p.length

theorem linsert_pass_lower (cmpfn : α → α → Int) (x : α) :
    ∀ (L1 L2 : List α), (∀ y ∈ L1, 0 < cmpfn x y) →
      linsert cmpfn x (L1 ++ L2) = L1 ++ linsert cmpfn x L2
  | [], L2, _ => by simp
  | a :: L1', L2, h => by
    rw [List.cons_append, linsert, if_pos (h a (List.mem_cons_self a L1'))]
    rw [linsert_pass_lower cmpfn x L1' L2 (fun y hy => h y (List.mem_cons_of_mem a hy))]
    simp

theorem linsert_gt_all (cmpfn : α → α → Int) (x : α) (L : List α)
    (h : ∀ y ∈ L, 0 < cmpfn x y) : linsert cmpfn x L = L ++ [x] := by
  have := linsert_pass_lower cmpfn x L [] h
  rw [List.append_nil] at this
  rw [this]
  rfl

theorem linsert_mid_lt (cmpfn : α → α → Int) (x e : α) (hxe : cmpfn x e < 0) :
    ∀ (L1 L2 : List α),
      linsert cmpfn x (L1 ++ e :: L2) = linsert cmpfn x L1 ++ e :: L2
  | [], L2 => by
    rw [List.nil_append]
    conv_lhs => rw [linsert]
    rw [if_neg (by omega : ¬ 0 < cmpfn x e), if_pos hxe]
    rfl
  | a :: L1', L2 => by
    rw [List.cons_append, linsert]
    conv_rhs => rw [linsert]
    by_cases h1 : 0 < cmpfn x a
    · rw [if_pos h1, if_pos h1, linsert_mid_lt cmpfn x e hxe L1' L2]
      simp
    · rw [if_neg h1, if_neg h1]
      by_cases h2 : cmpfn x a < 0 <;> simp [h2]

theorem searchOpt_node (cmpfn : α → α → Int) (x : α) (c : Color) (l : Tree α) (e : α)
    (r : Tree α) :
    searchOpt cmpfn x (.node c l e r) =
      (if 0 < cmpfn x e then searchOpt cmpfn x r
       else if cmpfn x e < 0 then searchOpt cmpfn x l
       else some e) := by
  rw [searchOpt, node_search]
  split_ifs <;> rfl

theorem insertGo_snd (cmpfn : α → α → Int) (x : α) :
    ∀ (t : Tree α) (path : List (Step α)),
      (insertGo cmpfn x t path).2 = searchOpt cmpfn x t
  | .nil, _ => by rw [insertGo]; rfl
  | .node c l e r, path => by
    rw [insertGo.eq_def]
    simp only []
    rw [searchOpt_node]
    split_ifs with h1 h2
    · cases r with
      | nil => rfl
      | node rc rl re rr => exact insertGo_snd cmpfn x _ _
    · cases l with
      | nil => rfl
      | node lc ll le lr => exact insertGo_snd cmpfn x _ _
    · rfl

theorem insertGo_inorder (cmpfn : α → α → Int)
    (hflip : ∀ a b, cmpfn a b < 0 ↔ 0 < cmpfn b a)
    (htrans : ∀ a b c, cmpfn a b < 0 → cmpfn b c < 0 → cmpfn a c < 0)
    (hcongr : ∀ a b c, cmpfn a b = 0 → cmpfn a c = cmpfn b c) (x : α) :
    ∀ (t : Tree α) (path : List (Step α)),
      List.Pairwise (fun a b => cmpfn a b < 0) (inorder t) →
      inorder (insertGo cmpfn x t path).1 = ctxIn path (linsert cmpfn x (inorder t))
  | .nil, path, _ => by
    rw [insertGo]
    simp only []
    rw [inorder_plug]
    rfl
  | .node c l e r, path, hsort => by
    simp only [inorder] at hsort
    obtain ⟨hsl, hcr, hcross⟩ := List.pairwise_append.mp hsort
    have hsr : List.Pairwise (fun a b => cmpfn a b < 0) (inorder r) :=
      (List.pairwise_cons.mp hcr).2
    have her : ∀ y ∈ inorder r, cmpfn e y < 0 := (List.pairwise_cons.mp hcr).1
    have hle : ∀ y ∈ inorder l, cmpfn y e < 0 :=
      fun y hy => hcross y hy e (List.mem_cons_self e (inorder r))
    rw [insertGo.eq_def]
    simp only [inorder]
    split_ifs with h1 h2
    · -- descend right: x compares greater than e and everything left of it
      have hxall : ∀ y ∈ inorder l ++ [e], 0 < cmpfn x y := by
        intro y hy
        rcases List.mem_append.mp hy with hyl | hye
        · have h3 := hle y hyl
          have h4 : cmpfn e x < 0 := (hflip e x).mpr h1
          exact (hflip y x).mp (htrans y e x h3 h4)
        · rw [List.mem_singleton.mp hye]
          exact h1
      have hmid : inorder l ++ e :: inorder r = (inorder l ++ [e]) ++ inorder r := by simp
      cases r with
      | nil =>
        simp only []
        rw [inorder_setBlack, inorder_post_insert_balance, ctxIn]
        refine congrArg (ctxIn path) ?_
        rw [hmid, linsert_pass_lower cmpfn x _ _ hxall]
        simp [inorder, linsert]
      | node rc rl re rr =>
        rw [insertGo_inorder cmpfn hflip htrans hcongr x _
          ({ fromLeft := false, pc := c, pe := e, sib := l } :: path) hsr]
        rw [ctxIn]
        refine congrArg (ctxIn path) ?_
        rw [hmid, linsert_pass_lower cmpfn x _ _ hxall]
        simp
    · -- descend left: x compares smaller than e
      cases l with
      | nil =>
        simp only []
        rw [inorder_setBlack, inorder_post_insert_balance, ctxIn]
        refine congrArg (ctxIn path) ?_
        simp only [inorder, List.nil_append]
        rw [linsert, if_neg h1, if_pos h2]
        simp [inorder]
      | node lc ll le lr =>
        rw [insertGo_inorder cmpfn hflip htrans hcongr x _
          ({ fromLeft := true, pc := c, pe := e, sib := r } :: path) hsl]
        rw [ctxIn]
        refine congrArg (ctxIn path) ?_
        rw [linsert_mid_lt cmpfn x e h2]
        simp
    · -- equal: swap the element out in place
      have heq : cmpfn x e = 0 := by omega
      rw [inorder_plug]
      refine congrArg (ctxIn path) ?_
      have hxall : ∀ y ∈ inorder l, 0 < cmpfn x y := by
        intro y hy
        have h3 : 0 < cmpfn e y := (hflip y e).mp (hle y hy)
        rw [hcongr x e y heq]
        exact h3
      rw [linsert_pass_lower cmpfn x _ _ hxall, linsert, if_neg h1, if_neg h2]
      simp [inorder]

theorem linsert_mem (cmpfn : α → α → Int) (x : α) :
    ∀ (L : List α) (z : α), z ∈ linsert cmpfn x L → z = x ∨ z ∈ L
  | [], z => by simp [linsert]
  | y :: ys, z => by
    rw [linsert]
    split_ifs with h1 h2
    · intro hz
      rcases List.mem_cons.mp hz with rfl | hz'
      · exact Or.inr (List.mem_cons_self _ _)
      · rcases linsert_mem cmpfn x ys z hz' with h | h
        · exact Or.inl h
        · exact Or.inr (List.mem_cons_of_mem _ h)
    · intro hz
      simpa using List.mem_cons.mp hz
    · intro hz
      rcases List.mem_cons.mp hz with rfl | hz'
      · exact Or.inl rfl
      · exact Or.inr (List.mem_cons_of_mem _ hz')

theorem linsert_pairwise (cmpfn : α → α → Int)
    (hflip : ∀ a b, cmpfn a b < 0 ↔ 0 < cmpfn b a)
    (htrans : ∀ a b c, cmpfn a b < 0 → cmpfn b c < 0 → cmpfn a c < 0)
    (hcongr : ∀ a b c, cmpfn a b = 0 → cmpfn a c = cmpfn b c) (x : α) :
    ∀ L : List α, List.Pairwise (fun a b => cmpfn a b < 0) L →
      List.Pairwise (fun a b => cmpfn a b < 0) (linsert cmpfn x L)
  | [], _ => by simp [linsert]
  | y :: ys, hs => by
    obtain ⟨hy, hys⟩ := List.pairwise_cons.mp hs
    rw [linsert]
    split_ifs with h1 h2
    · rw [List.pairwise_cons]
      refine ⟨?_, linsert_pairwise cmpfn hflip htrans hcongr x ys hys⟩
      intro z hz
      rcases linsert_mem cmpfn x ys z hz with rfl | hz'
      · exact (hflip y z).mpr h1
      · exact hy z hz'
    · rw [List.pairwise_cons]
      refine ⟨?_, hs⟩
      intro z hz
      rcases List.mem_cons.mp hz with rfl | hz'
      · exact h2
      · exact htrans x y z h2 (hy z hz')
    · have heq : cmpfn x y = 0 := by omega
      rw [List.pairwise_cons]
      refine ⟨?_, hys⟩
      intro z hz
      rw [hcongr x y z heq]
      exact hy z hz

theorem linsert_classes (cmpfn : α → α → Int)
    (hflip : ∀ a b, cmpfn a b < 0 ↔ 0 < cmpfn b a)
    (hcongr : ∀ a b c, cmpfn a b = 0 → cmpfn a c = cmpfn b c) (x : α) :
    ∀ (L : List α) (z : α),
      (∃ y ∈ linsert cmpfn x L, cmpfn z y = 0) ↔
        (cmpfn z x = 0 ∨ ∃ y ∈ L, cmpfn z y = 0)
  | [], z => by simp [linsert]
  | y :: ys, z => by
    rw [linsert]
    split_ifs with h1 h2
    · simp only [List.mem_cons, exists_eq_or_imp]
      rw [show (∃ y2 ∈ linsert cmpfn x ys, cmpfn z y2 = 0) ↔ _ from
        linsert_classes cmpfn hflip hcongr x ys z]
      tauto
    · simp only [List.mem_cons, exists_eq_or_imp]
    · have heq : cmpfn x y = 0 := by omega
      simp only [List.mem_cons, exists_eq_or_imp]
      have hzy : cmpfn z y = 0 ↔ cmpfn z x = 0 := by
        constructor
        · intro h
          rw [hcongr z y x h]
          exact (cmp_zero_symm hflip x y).mp heq
        · intro h
          rw [hcongr z x y h]
          exact heq
      tauto

theorem linsert_length (cmpfn : α → α → Int)
    (hflip : ∀ a b, cmpfn a b < 0 ↔ 0 < cmpfn b a)
    (htrans : ∀ a b c, cmpfn a b < 0 → cmpfn b c < 0 → cmpfn a c < 0) (x : α) :
    ∀ L : List α, List.Pairwise (fun a b => cmpfn a b < 0) L →
      (linsert cmpfn x L).length =
        L.length + (if ∃ y ∈ L, cmpfn x y = 0 then 0 else 1)
  | [], _ => by simp [linsert]
  | y :: ys, hs => by
    obtain ⟨hy, hys⟩ := List.pairwise_cons.mp hs
    have hsplit : (∃ y2 ∈ y :: ys, cmpfn x y2 = 0) ↔
        (cmpfn x y = 0 ∨ ∃ y2 ∈ ys, cmpfn x y2 = 0) := by
      simp only [List.mem_cons, exists_eq_or_imp]
    rw [linsert]
    by_cases h1 : 0 < cmpfn x y
    · rw [if_pos h1, List.length_cons, linsert_length cmpfn hflip htrans x ys hys]
      by_cases hex : ∃ y2 ∈ ys, cmpfn x y2 = 0
      · rw [if_pos hex, if_pos (hsplit.mpr (Or.inr hex))]
        simp only [List.length_cons]
      · rw [if_neg hex, if_neg (by rw [hsplit]; push_neg; exact ⟨by omega, by
          push_neg at hex
          intro y2 hy2
          exact hex y2 hy2⟩)]
        simp only [List.length_cons]
    · rw [if_neg h1]
      by_cases h2 : cmpfn x y < 0
      · rw [if_pos h2]
        have hnone : ¬ ∃ y2 ∈ y :: ys, cmpfn x y2 = 0 := by
          rw [hsplit]
          rintro (h0 | ⟨y2, hy2, h0⟩)
          · omega
          · have := htrans x y y2 h2 (hy y2 hy2)
            omega
        rw [if_neg hnone]
        simp only [List.length_cons]
      · rw [if_neg h2]
        have heq : cmpfn x y = 0 := by omega
        rw [if_pos (hsplit.mpr (Or.inl heq))]
        simp only [List.length_cons]

theorem searchOpt_isSome (cmpfn : α → α → Int)
    (hflip : ∀ a b, cmpfn a b < 0 ↔ 0 < cmpfn b a)
    (htrans : ∀ a b c, cmpfn a b < 0 → cmpfn b c < 0 → cmpfn a c < 0) (x : α) :
    ∀ t : Tree α, List.Pairwise (fun a b => cmpfn a b < 0) (inorder t) →
      ((searchOpt cmpfn x t).isSome ↔ ∃ y ∈ inorder t, cmpfn x y = 0)
  | .nil, _ => by simp [searchOpt, node_search, inorder]
  | .node c l e r, hsort => by
    simp only [inorder] at hsort
    obtain ⟨hsl, hcr, hcross⟩ := List.pairwise_append.mp hsort
    have hsr : List.Pairwise (fun a b => cmpfn a b < 0) (inorder r) :=
      (List.pairwise_cons.mp hcr).2
    have her : ∀ y ∈ inorder r, cmpfn e y < 0 := (List.pairwise_cons.mp hcr).1
    have hle : ∀ y ∈ inorder l, cmpfn y e < 0 :=
      fun y hy => hcross y hy e (List.mem_cons_self e (inorder r))
    rw [searchOpt_node]
    simp only [inorder, List.mem_append, List.mem_cons]
    split_ifs with h1 h2
    · rw [searchOpt_isSome cmpfn hflip htrans x r hsr]
      constructor
      · rintro ⟨y, hy, h0⟩
        exact ⟨y, Or.inr (Or.inr hy), h0⟩
      · rintro ⟨y, hy, h0⟩
        rcases hy with hyl | rfl | hyr
        · have h3 := hle y hyl
          have h4 : cmpfn e x < 0 := (hflip e x).mpr h1
          have := htrans y e x h3 h4
          have := (hflip y x).mp this
          omega
        · omega
        · exact ⟨y, hyr, h0⟩
    · rw [searchOpt_isSome cmpfn hflip htrans x l hsl]
      constructor
      · rintro ⟨y, hy, h0⟩
        exact ⟨y, Or.inl hy, h0⟩
      · rintro ⟨y, hy, h0⟩
        rcases hy with hyl | rfl | hyr
        · exact ⟨y, hyl, h0⟩
        · omega
        · have h3 := her y hyr
          have := htrans x e y h2 h3
          omega
    · simp only [Option.isSome_some, true_iff]
      exact ⟨e, Or.inr (Or.inl rfl), by omega⟩

theorem set_get_eq_searchOpt (cmpfn : α → α → Int) (s : SetT α) (x : α) :
    set_get cmpfn s x = searchOpt cmpfn x s.root := rfl

theorem set_insert_spec (cmpfn : α → α → Int)
    (hflip : ∀ a b, cmpfn a b < 0 ↔ 0 < cmpfn b a)
    (htrans : ∀ a b c, cmpfn a b < 0 → cmpfn b c < 0 → cmpfn a c < 0)
    (hcongr : ∀ a b c, cmpfn a b = 0 → cmpfn a c = cmpfn b c)
    (s : SetT α) (x : α)
    (hsort : List.Pairwise (fun a b => cmpfn a b < 0) (inorder s.root)) :
    inorder (set_insert cmpfn s x).1.root = linsert cmpfn x (inorder s.root) ∧
    (set_insert cmpfn s x).2 = set_get cmpfn s x ∧
    (set_insert cmpfn s x).1.length =
      s.length + (if (set_get cmpfn s x).isSome then 0 else 1) := by
  rcases hroot : s.root with _ | ⟨c, l, e, r⟩
  · rw [set_insert.eq_def, hroot]
    simp [inorder, linsert, set_get_eq_searchOpt, hroot, searchOpt, node_search]
  · rw [set_insert.eq_def, hroot]
    simp only []
    have hsnd := insertGo_snd cmpfn x (Tree.node c l e r) []
    have hino := insertGo_inorder cmpfn hflip htrans hcongr x (Tree.node c l e r) []
      (hroot ▸ hsort)
    rw [ctxIn] at hino
    rw [set_get_eq_searchOpt, hroot]
    rcases hr2 : (insertGo cmpfn x (Tree.node c l e r) []).2 with _ | old
    · rw [hr2] at hsnd
      simp only []
      rw [← hsnd]
      exact ⟨hino, rfl, by simp⟩
    · rw [hr2] at hsnd
      simp only []
      rw [← hsnd]
      exact ⟨hino, rfl, by simp⟩

theorem next_node_inorder_visits :
    ∀ (t : Tree α) (e : α) (t' : Tree α), next_node_inorder t = some (e, t') →
      inorder t = e :: inorder t'
  | .nil, e, t' => by simp [next_node_inorder]
  | .node c .nil e0 r, e, t' => by
    rw [next_node_inorder]
    intro h
    simp only [Option.some.injEq, Prod.mk.injEq] at h
    rw [← h.1, ← h.2]
    simp [inorder]
  | .node c (.node lc ll le lr) e0 r, e, t' => by
    rw [next_node_inorder]
    intro h
    have ih := next_node_inorder_visits _ e t' h
    simp only [inorder] at ih ⊢
    rw [← ih]
    simp [List.append_assoc]
termination_by t => leftSize t
decreasing_by
  simp only [leftSize, size]
  omega

theorem next_node_inorder_none :
    ∀ t : Tree α, next_node_inorder t = none → t = .nil
  | .nil, _ => rfl
  | .node c .nil e r, h => by
    rw [next_node_inorder] at h
    exact absurd h (by simp)
  | .node c (.node lc ll le lr) e r, h => by
    rw [next_node_inorder] at h
    exact absurd (next_node_inorder_none _ h) (by simp)
termination_by t => leftSize t
decreasing_by
  simp only [leftSize, size]
  omega

theorem iterSeq_eq_inorder (t : Tree α) : iterSeq t = inorder t := by
  rw [iterSeq]
  split
  · rename_i h
    rw [next_node_inorder_none t h]
    rfl
  · rename_i e t' h
    rw [iterSeq_eq_inorder t', ← next_node_inorder_visits t e t' h]
termination_by size t
decreasing_by
  rename_i hlast
  exact next_node_inorder_size hlast

theorem insertAll_loop_invariant (cmpfn : α → α → Int)
    (hflip : ∀ a b, cmpfn a b < 0 ↔ 0 < cmpfn b a)
    (htrans : ∀ a b c, cmpfn a b < 0 → cmpfn b c < 0 → cmpfn a c < 0)
    (hcongr : ∀ a b c, cmpfn a b = 0 → cmpfn a c = cmpfn b c) :
    ∀ (xs : List α) (s : SetT α) (acc : List α),
      List.Pairwise (fun a b => cmpfn a b < 0) (inorder s.root) →
      s.length = (inorder s.root).length →
      (inorder s.root).length = acc.length →
      (∀ z, (∃ y ∈ inorder s.root, cmpfn z y = 0) ↔ ∃ y ∈ acc, cmpfn z y = 0) →
      List.Pairwise (fun a b => cmpfn a b < 0)
        (inorder (xs.foldl (fun s x => (set_insert cmpfn s x).1) s).root) ∧
      (xs.foldl (fun s x => (set_insert cmpfn s x).1) s).length =
        (inorder (xs.foldl (fun s x => (set_insert cmpfn s x).1) s).root).length ∧
      (inorder (xs.foldl (fun s x => (set_insert cmpfn s x).1) s).root).length =
        (xs.foldl (fun acc x =>
          if acc.any (fun y => cmpfn x y == 0) then acc else x :: acc) acc).length
  | [], s, acc, hsort, hlen, hacc, _ => ⟨hsort, hlen, hacc⟩
  | x :: rest, s, acc, hsort, hlen, hacc, hcls => by
    obtain ⟨hino, hsnd, hlen'⟩ :=
      set_insert_spec cmpfn hflip htrans hcongr s x hsort
    have hget : (set_get cmpfn s x).isSome ↔ ∃ y ∈ inorder s.root, cmpfn x y = 0 := by
      rw [set_get_eq_searchOpt]
      exact searchOpt_isSome cmpfn hflip htrans x s.root hsort
    have hany : (acc.any (fun y => cmpfn x y == 0) = true) ↔
        ∃ y ∈ acc, cmpfn x y = 0 := by
      rw [List.any_eq_true]
      constructor
      · rintro ⟨y, hy, h0⟩
        exact ⟨y, hy, by simpa using h0⟩
      · rintro ⟨y, hy, h0⟩
        exact ⟨y, hy, by simpa using h0⟩
    have hsort' : List.Pairwise (fun a b => cmpfn a b < 0)
        (inorder (set_insert cmpfn s x).1.root) := by
      rw [hino]
      exact linsert_pairwise cmpfn hflip htrans hcongr x _ hsort
    have hlen2 : (set_insert cmpfn s x).1.length =
        (inorder (set_insert cmpfn s x).1.root).length := by
      rw [hino, hlen', hlen, linsert_length cmpfn hflip htrans x _ hsort]
      by_cases hex : ∃ y ∈ inorder s.root, cmpfn x y = 0
      · rw [if_pos hex, if_pos (hget.mpr hex)]
      · rw [if_neg hex, if_neg (fun h => hex (hget.mp h))]
    have hcls' : ∀ z, (∃ y ∈ inorder (set_insert cmpfn s x).1.root, cmpfn z y = 0) ↔
        ∃ y ∈ (if acc.any (fun y => cmpfn x y == 0) then acc else x :: acc),
          cmpfn z y = 0 := by
      intro z
      rw [hino, linsert_classes cmpfn hflip hcongr x _ z]
      by_cases hpres : acc.any (fun y => cmpfn x y == 0) = true
      · rw [if_pos hpres]
        obtain ⟨y0, hy0, h0⟩ := hany.mp hpres
        constructor
        · rintro (hzx | hz)
          · refine ⟨y0, hy0, ?_⟩
            rw [hcongr z x y0 hzx]
            exact h0
          · exact (hcls z).mp hz
        · intro h
          exact Or.inr ((hcls z).mpr h)
      · rw [if_neg hpres]
        simp only [List.mem_cons, exists_eq_or_imp]
        rw [← hcls z]
    have hacc' : (inorder (set_insert cmpfn s x).1.root).length =
        (if acc.any (fun y => cmpfn x y == 0) then acc else x :: acc).length := by
      rw [hino, linsert_length cmpfn hflip htrans x _ hsort]
      by_cases hpres : acc.any (fun y => cmpfn x y == 0) = true
      · rw [if_pos hpres, if_pos ((hcls x).mpr (hany.mp hpres)), hacc]
        omega
      · have hnone : ¬ ∃ y ∈ inorder s.root, cmpfn x y = 0 :=
          fun h => hpres (hany.mpr ((hcls x).mp h))
        rw [if_neg hpres, if_neg hnone, List.length_cons, hacc]
    exact insertAll_loop_invariant cmpfn hflip htrans hcongr rest
      (set_insert cmpfn s x).1 _ hsort' hlen2 hacc' hcls'

/-- C8: starting from a freshly created set, any sequence of `set_insert`
calls keeps the complete `set_createiter`/`set_next` iteration strictly
ascending under the comparison function (hence no two stored elements compare
equal), and keeps `set_length` equal to the number of pairwise-inequivalent
elements inserted so far. -/
theorem set_insert_sequence_invariants (cmpfn : α → α → Int)
    (hflip : ∀ a b, cmpfn a b < 0 ↔ 0 < cmpfn b a)
    (htrans : ∀ a b c, cmpfn a b < 0 → cmpfn b c < 0 → cmpfn a c < 0)
    (hcongr : ∀ a b c, cmpfn a b = 0 → cmpfn a c = cmpfn b c) (xs : List α) :
    List.Pairwise (fun a b => cmpfn a b < 0) (iterSeq (insertAll cmpfn xs).root) ∧
    List.Pairwise (fun a b => cmpfn a b ≠ 0) (iterSeq (insertAll cmpfn xs).root) ∧
    set_length (insertAll cmpfn xs) = countDistinct cmpfn xs := by
  obtain ⟨hsort, hlen, hacc⟩ := insertAll_loop_invariant cmpfn hflip htrans hcongr xs
    set_create [] List.Pairwise.nil rfl rfl (by simp [set_create, inorder])
  rw [iterSeq_eq_inorder]
  unfold insertAll set_length countDistinct distinctReps
  exact ⟨hsort, hsort.imp (fun h => by omega), hlen.trans hacc⟩

/-- Witness for C8: inserting the integers 2, 1, 2 under subtraction as
comparison; the iteration is duplicate-free and the length counts the two
distinct elements. -/
theorem set_insert_sequence_invariants_witness :
    List.Pairwise (fun a b : Int => (fun a b : Int => a - b) a b ≠ 0)
      (iterSeq (insertAll (fun a b : Int => a - b) [2, 1, 2]).root) ∧
    set_length (insertAll (fun a b : Int => a - b) [2, 1, 2]) =
      countDistinct (fun a b : Int => a - b) [2, 1, 2] :=
  have hflip : ∀ a b : Int, (fun a b : Int => a - b) a b < 0 ↔
      0 < (fun a b : Int => a - b) b a := by
    intro a b
    show a - b < 0 ↔ 0 < b - a
    omega
  have htrans : ∀ a b c : Int, (fun a b : Int => a - b) a b < 0 →
      (fun a b : Int => a - b) b c < 0 → (fun a b : Int => a - b) a c < 0 := by
    intro a b c h1 h2
    have h1' : a - b < 0 := h1
    have h2' : b - c < 0 := h2
    show a - c < 0
    omega
  have hcongr : ∀ a b c : Int, (fun a b : Int => a - b) a b = 0 →
      (fun a b : Int => a - b) a c = (fun a b : Int => a - b) b c := by
    intro a b c h
    have h' : a - b = 0 := h
    show a - c = b - c
    omega
  have H := set_insert_sequence_invariants (fun a b : Int => a - b)
    hflip htrans hcongr [2, 1, 2]
  ⟨H.2.1, H.2.2⟩

theorem set_insert_returns_previous (cmpfn : α → α → Int) (s : SetT α) (x : α) :
    (set_insert cmpfn s x).2 = set_get cmpfn s x ∧
    ((set_get cmpfn s x).isSome → (set_insert cmpfn s x).1.length = s.length) ∧
    (set_get cmpfn s x = none → (set_insert cmpfn s x).1.length = s.length + 1) := by
  rcases hroot : s.root with _ | ⟨c, l, e, r⟩
  · rw [set_insert.eq_def, hroot, set_get_eq_searchOpt, hroot]
    simp [searchOpt, node_search]
  · rw [set_insert.eq_def, hroot, set_get_eq_searchOpt, hroot]
    simp only []
    have hsnd := insertGo_snd cmpfn x (Tree.node c l e r) []
    rcases hr2 : (insertGo cmpfn x (Tree.node c l e r) []).2 with _ | old
    · rw [hr2] at hsnd
      rw [← hsnd]
      simp
    · rw [hr2] at hsnd
      rw [← hsnd]
      simp

theorem node_search_plug (cmpfn : α → α → Int) (x : α) :
    ∀ (p : List (Step α)) (u : Tree α),
      (∀ s ∈ p, if s.fromLeft = true then cmpfn x s.pe < 0 else 0 < cmpfn x s.pe) →
      node_search cmpfn x (plug u p) = node_search cmpfn x u
  | [], u, _ => rfl
  | s :: rest, u, hg => by
    rw [plug]
    rw [node_search_plug cmpfn x rest _
      (fun s2 hs2 => hg s2 (List.mem_cons_of_mem s hs2))]
    have hhead := hg s (List.mem_cons_self s rest)
    by_cases hs : s.fromLeft = true
    · rw [if_pos hs] at hhead
      rw [if_pos hs, node_search, if_neg (by omega), if_pos hhead]
    · rw [if_neg hs] at hhead
      rw [if_neg hs, node_search, if_pos hhead]

theorem insertGo_replace_found (cmpfn : α → α → Int) (x : α) (hrefl : cmpfn x x = 0) :
    ∀ (t : Tree α) (path : List (Step α)),
      (∀ s ∈ path, if s.fromLeft = true then cmpfn x s.pe < 0 else 0 < cmpfn x s.pe) →
      ∀ old : α, (insertGo cmpfn x t path).2 = some old →
        searchOpt cmpfn x (insertGo cmpfn x t path).1 = some x
  | .nil, path, _, old => by
    rw [insertGo]
    intro h
    exact absurd h (by simp)
  | .node c l e r, path, hg, old => by
    rw [insertGo.eq_def]
    simp only []
    split_ifs with h1 h2
    · cases r with
      | nil =>
        intro h
        exact absurd h (by simp)
      | node rc rl re rr =>
        exact insertGo_replace_found cmpfn x hrefl _ _
          (by
            intro s2 hs2
            rcases List.mem_cons.mp hs2 with rfl | hs2'
            · simpa using h1
            · exact hg s2 hs2') old
    · cases l with
      | nil =>
        intro h
        exact absurd h (by simp)
      | node lc ll le lr =>
        exact insertGo_replace_found cmpfn x hrefl _ _
          (by
            intro s2 hs2
            rcases List.mem_cons.mp hs2 with rfl | hs2'
            · simpa using h2
            · exact hg s2 hs2') old
    · intro _
      show searchOpt cmpfn x (plug (Tree.node c l x r) path) = some x
      rw [searchOpt, node_search_plug cmpfn x path _ hg, node_search,
        if_neg (by omega), if_neg (by omega)]

theorem set_insert_fst_root (cmpfn : α → α → Int) (s : SetT α) (x : α)
    (c : Color) (l : Tree α) (e : α) (r : Tree α) (hroot : s.root = .node c l e r) :
    (set_insert cmpfn s x).1.root = (insertGo cmpfn x (Tree.node c l e r) []).1 := by
  rw [set_insert.eq_def, hroot]
  simp only []
  rcases hr2 : (insertGo cmpfn x (Tree.node c l e r) []).2 with _ | o2 <;> rfl

theorem set_insert_snd_eq (cmpfn : α → α → Int) (s : SetT α) (x : α)
    (c : Color) (l : Tree α) (e : α) (r : Tree α) (hroot : s.root = .node c l e r) :
    (set_insert cmpfn s x).2 = (insertGo cmpfn x (Tree.node c l e r) []).2 := by
  rw [set_insert.eq_def, hroot]
  simp only []
  rcases hr2 : (insertGo cmpfn x (Tree.node c l e r) []).2 with _ | o2 <;> rfl

theorem set_insert_replace_stores (cmpfn : α → α → Int) (s : SetT α) (x : α)
    (hrefl : cmpfn x x = 0) (old : α)
    (h : (set_insert cmpfn s x).2 = some old) :
    set_get cmpfn (set_insert cmpfn s x).1 x = some x := by
  rcases hroot : s.root with _ | ⟨c, l, e, r⟩
  · rw [set_insert.eq_def, hroot] at h
    exact absurd h (by simp)
  · rw [set_get_eq_searchOpt, set_insert_fst_root cmpfn s x c l e r hroot]
    apply insertGo_replace_found cmpfn x hrefl (Tree.node c l e r) []
      (fun s2 hs2 => absurd hs2 (List.not_mem_nil s2)) old
    rw [← set_insert_snd_eq cmpfn s x c l e r hroot]
    exact h

end RBSet

namespace Hashmap

variable {K V : Type}

theorem chainReplace_eq_find (cmp : K → K → Int)
    (hzero : ∀ a b, cmp a b = 0 ↔ cmp b a = 0) (k : K) (v : V) :
    ∀ chain : List (Entry K V),
      Option.map Prod.fst (chainReplace cmp ⟨k, v⟩ chain) =
        chain.find? (fun e => cmp e.key k = 0)
  | [] => rfl
  | curr :: rest => by
    rw [chainReplace]
    by_cases hc : cmp k curr.key = 0
    · rw [if_pos hc, List.find?_cons_of_pos _ (by simpa using (hzero k curr.key).mp hc)]
      rfl
    · rw [if_neg hc,
        List.find?_cons_of_neg _ (by simpa using fun hq => hc ((hzero curr.key k).mp hq)),
        ← chainReplace_eq_find cmp hzero k v rest]
      rcases hr : chainReplace cmp ⟨k, v⟩ rest with _ | ⟨old, rest2⟩ <;> simp [hr]

theorem chainReplace_replaced_find (cmp : K → K → Int)
    (hzero : ∀ a b, cmp a b = 0 ↔ cmp b a = 0) (k : K) (v : V)
    (hrefl : cmp k k = 0) :
    ∀ (chain : List (Entry K V)) (old : Entry K V) (chain' : List (Entry K V)),
      chainReplace cmp ⟨k, v⟩ chain = some (old, chain') →
      chain'.find? (fun e => cmp e.key k = 0) = some ⟨k, v⟩
  | [], old, chain' => by simp [chainReplace]
  | curr :: rest, old, chain' => by
    rw [chainReplace]
    by_cases hc : cmp k curr.key = 0
    · rw [if_pos hc]
      intro h
      simp only [Option.some.injEq, Prod.mk.injEq] at h
      rw [← h.2, List.find?_cons_of_pos _ (by simpa using hrefl)]
    · rw [if_neg hc]
      rcases hr : chainReplace cmp ⟨k, v⟩ rest with _ | ⟨o2, rest2⟩
      · intro h
        exact absurd h (by simp)
      · intro h
        simp only [Option.some.injEq, Prod.mk.injEq] at h
        rw [← h.2,
          List.find?_cons_of_neg _ (by simpa using fun hq => hc ((hzero curr.key k).mp hq))]
        exact chainReplace_replaced_find cmp hzero k v hrefl rest o2 rest2 hr

theorem map_insert_returns_previous (m : Map K V) (k : K) (v : V)
    (hzero : ∀ a b, m.cmpfn a b = 0 ↔ m.cmpfn b a = 0)
    (hrefl : m.cmpfn k k = 0) :
    (map_insert m k v).2 = map_get m k ∧
    ((map_get m k).isSome →
      (map_insert m k v).1.length = m.length ∧
      map_get (map_insert m k v).1 k = some ⟨k, v⟩) := by
  have hfind := chainReplace_eq_find m.cmpfn hzero k v
    (m.buckets.getD (m.hashfn k % m.buckets.length) [])
  rcases hcr : chainReplace m.cmpfn ⟨k, v⟩
      (m.buckets.getD (m.hashfn k % m.buckets.length) []) with _ | ⟨old, chain'⟩
  · rw [hcr] at hfind
    simp only [Option.map_none'] at hfind
    rw [map_insert.eq_def]
    simp only [hcr]
    constructor
    · rw [map_get, ← hfind]
      split <;> rfl
    · rw [map_get, ← hfind]
      simp
  · rw [hcr] at hfind
    simp only [Option.map_some'] at hfind
    rw [map_insert.eq_def]
    simp only [hcr]
    refine ⟨by rw [map_get, ← hfind], fun _ => ⟨by trivial, ?_⟩⟩
    have hne : m.buckets.getD (m.hashfn k % m.buckets.length) [] ≠ [] := by
      intro h0
      rw [h0] at hcr
      simp [chainReplace] at hcr
    have hlt : m.hashfn k % m.buckets.length < m.buckets.length := by
      by_contra hge
      push_neg at hge
      exact hne (List.getD_eq_default _ _ hge)
    rw [map_get]
    simp only [List.length_set]
    rw [List.getD_eq_getElem?_getD, List.getElem?_set_self hlt]
    exact chainReplace_replaced_find m.cmpfn hzero k v hrefl _ old chain' hcr

end Hashmap

/-- C7: `set_insert` returns exactly what `set_get` finds — `none` when no
element compares equal (then the length grows by one), and the previously
stored element on a replace (then the length is unchanged and the new
element is the one subsequently found); `map_insert` likewise returns
`map_get`'s entry, and on a replace keeps the length and stores the new
entry under the key. -/
theorem insert_returns_previous {α K V : Type} (cmpfn : α → α → Int)
    (s : RBSet.SetT α) (x : α) (m : Hashmap.Map K V) (k : K) (v : V)
    (hreflS : cmpfn x x = 0)
    (hzero : ∀ a b, m.cmpfn a b = 0 ↔ m.cmpfn b a = 0)
    (hrefl : m.cmpfn k k = 0) :
    ((RBSet.set_insert cmpfn s x).2 = RBSet.set_get cmpfn s x ∧
      ((RBSet.set_get cmpfn s x).isSome →
        (RBSet.set_insert cmpfn s x).1.length = s.length ∧
        RBSet.set_get cmpfn (RBSet.set_insert cmpfn s x).1 x = some x) ∧
      (RBSet.set_get cmpfn s x = none →
        (RBSet.set_insert cmpfn s x).1.length = s.length + 1)) ∧
    ((Hashmap.map_insert m k v).2 = Hashmap.map_get m k ∧
      ((Hashmap.map_get m k).isSome →
        (Hashmap.map_insert m k v).1.length = m.length ∧
        Hashmap.map_get (Hashmap.map_insert m k v).1 k = some ⟨k, v⟩)) := by
  refine ⟨?_, Hashmap.map_insert_returns_previous m k v hzero hrefl⟩
  have hs := RBSet.set_insert_returns_previous cmpfn s x
  refine ⟨hs.1, fun hsome => ⟨hs.2.1 hsome, ?_⟩, hs.2.2⟩
  obtain ⟨old, hold⟩ := Option.isSome_iff_exists.mp hsome
  exact RBSet.set_insert_replace_stores cmpfn s x hreflS old (by rw [hs.1, hold])

/-- Witness for C7: a concrete integer set and a concrete integer-keyed map
(subtraction as comparison, absolute value as hash). -/
theorem insert_returns_previous_witness :
    (RBSet.set_insert (fun a b : Int => a - b)
        (RBSet.insertAll (fun a b : Int => a - b) [5, 7]) 5).2 =
      RBSet.set_get (fun a b : Int => a - b)
        (RBSet.insertAll (fun a b : Int => a - b) [5, 7]) 5 ∧
    (Hashmap.map_insert
        (Hashmap.map_create (V := Int) (fun a b : Int => a - b) Int.natAbs) 4 10).2 =
      Hashmap.map_get
        (Hashmap.map_create (V := Int) (fun a b : Int => a - b) Int.natAbs) 4 :=
  have H := insert_returns_previous (fun a b : Int => a - b)
    (RBSet.insertAll (fun a b : Int => a - b) [5, 7]) 5
    (Hashmap.map_create (V := Int) (fun a b : Int => a - b) Int.natAbs) 4 10
    (by
      show (5 : Int) - 5 = 0
      omega)
    (by
      intro a b
      show a - b = 0 ↔ b - a = 0
      omega)
    (by
      show (4 : Int) - 4 = 0
      omega)
  ⟨H.1.1, H.2.1⟩


namespace RBSet

variable {α : Type}

theorem set_get_isSome (cmpfn : α → α → Int)
    (hflip : ∀ a b, cmpfn a b < 0 ↔ 0 < cmpfn b a)
    (htrans : ∀ a b c, cmpfn a b < 0 → cmpfn b c < 0 → cmpfn a c < 0)
    (s : SetT α) (x : α)
    (hs : List.Pairwise (fun a b => cmpfn a b < 0) (inorder s.root)) :
    ((set_get cmpfn s x).isSome ↔ ∃ y ∈ inorder s.root, cmpfn x y = 0) := by
  rw [set_get_eq_searchOpt]
  exact searchOpt_isSome cmpfn hflip htrans x s.root hs

theorem rec_set_copy_eq : ∀ t : Tree α, rec_set_copy t = t
  | .nil => rfl
  | .node c l e r => by rw [rec_set_copy, rec_set_copy_eq l, rec_set_copy_eq r]

theorem set_copy_eq (s : SetT α) : set_copy s = s := by
  rw [set_copy, rec_set_copy_eq]

theorem rec_set_merge_spec (cmpfn : α → α → Int)
    (hflip : ∀ a b, cmpfn a b < 0 ↔ 0 < cmpfn b a)
    (htrans : ∀ a b c, cmpfn a b < 0 → cmpfn b c < 0 → cmpfn a c < 0)
    (hcongr : ∀ a b c, cmpfn a b = 0 → cmpfn a c = cmpfn b c) :
    ∀ (t : Tree α) (c : SetT α),
      List.Pairwise (fun a b => cmpfn a b < 0) (inorder c.root) →
      List.Pairwise (fun a b => cmpfn a b < 0) (inorder (rec_set_merge cmpfn c t).root) ∧
      (∀ z, (∃ y ∈ inorder (rec_set_merge cmpfn c t).root, cmpfn z y = 0) ↔
        ((∃ y ∈ inorder c.root, cmpfn z y = 0) ∨ ∃ y ∈ inorder t, cmpfn z y = 0))
  | .nil, c, hc => by
    rw [rec_set_merge]
    exact ⟨hc, fun z => by simp [inorder]⟩
  | .node c0 l e r, c, hc => by
    rw [rec_set_merge]
    have h1 := rec_set_merge_spec cmpfn hflip htrans hcongr r c hc
    have h2 := rec_set_merge_spec cmpfn hflip htrans hcongr l _ h1.1
    have h3 := set_insert_spec cmpfn hflip htrans hcongr _ e h2.1
    constructor
    · rw [h3.1]
      exact linsert_pairwise cmpfn hflip htrans hcongr e _ h2.1
    · intro z
      rw [h3.1, linsert_classes cmpfn hflip hcongr e _ z, h2.2 z, h1.2 z]
      simp only [inorder, List.mem_append, List.mem_cons]
      constructor
      · rintro (h | (h | h) | ⟨y, hy, h0⟩)
        · exact Or.inr ⟨e, Or.inr (Or.inl rfl), h⟩
        · exact Or.inl h
        · obtain ⟨y, hy, h0⟩ := h
          exact Or.inr ⟨y, Or.inr (Or.inr hy), h0⟩
        · exact Or.inr ⟨y, Or.inl hy, h0⟩
      · rintro (h | ⟨y, hyl | rfl | hyr, h0⟩)
        · exact Or.inr (Or.inl (Or.inl h))
        · exact Or.inr (Or.inr ⟨y, hyl, h0⟩)
        · exact Or.inl h0
        · exact Or.inr (Or.inl (Or.inr ⟨y, hyr, h0⟩))

theorem rec_set_intersection_spec (cmpfn : α → α → Int)
    (hflip : ∀ a b, cmpfn a b < 0 ↔ 0 < cmpfn b a)
    (htrans : ∀ a b c, cmpfn a b < 0 → cmpfn b c < 0 → cmpfn a c < 0)
    (hcongr : ∀ a b c, cmpfn a b = 0 → cmpfn a c = cmpfn b c) (b : SetT α)
    (hb : List.Pairwise (fun a b => cmpfn a b < 0) (inorder b.root)) :
    ∀ (t : Tree α) (c : SetT α),
      List.Pairwise (fun a b => cmpfn a b < 0) (inorder c.root) →
      List.Pairwise (fun a b => cmpfn a b < 0)
        (inorder (rec_set_intersection cmpfn c b t).root) ∧
      (∀ z, (∃ y ∈ inorder (rec_set_intersection cmpfn c b t).root, cmpfn z y = 0) ↔
        ((∃ y ∈ inorder c.root, cmpfn z y = 0) ∨
          ∃ y ∈ inorder t, cmpfn z y = 0 ∧ ∃ w ∈ inorder b.root, cmpfn y w = 0))
  | .nil, c, hc => by
    rw [rec_set_intersection]
    exact ⟨hc, fun z => by simp [inorder]⟩
  | .node c0 l e r, c, hc => by
    rw [rec_set_intersection]
    have h1 := rec_set_intersection_spec cmpfn hflip htrans hcongr b hb l c hc
    have h2 := rec_set_intersection_spec cmpfn hflip htrans hcongr b hb r _ h1.1
    by_cases hget : (set_get cmpfn b e).isSome
    · rw [if_pos hget]
      have h3 := set_insert_spec cmpfn hflip htrans hcongr _ e h2.1
      have hgetb : ∃ w ∈ inorder b.root, cmpfn e w = 0 :=
        (set_get_isSome cmpfn hflip htrans b e hb).mp hget
      constructor
      · rw [h3.1]
        exact linsert_pairwise cmpfn hflip htrans hcongr e _ h2.1
      · intro z
        rw [h3.1, linsert_classes cmpfn hflip hcongr e _ z, h2.2 z, h1.2 z]
        simp only [inorder, List.mem_append, List.mem_cons]
        constructor
        · rintro (h | (h | ⟨y, hy, h0, hw⟩) | ⟨y, hy, h0, hw⟩)
          · exact Or.inr ⟨e, Or.inr (Or.inl rfl), h, hgetb⟩
          · exact Or.inl h
          · exact Or.inr ⟨y, Or.inl hy, h0, hw⟩
          · exact Or.inr ⟨y, Or.inr (Or.inr hy), h0, hw⟩
        · rintro (h | ⟨y, hyl | rfl | hyr, h0, hw⟩)
          · exact Or.inr (Or.inl (Or.inl h))
          · exact Or.inr (Or.inl (Or.inr ⟨y, hyl, h0, hw⟩))
          · exact Or.inl h0
          · exact Or.inr (Or.inr ⟨y, hyr, h0, hw⟩)
    · rw [if_neg hget]
      have hnb : ¬ ∃ w ∈ inorder b.root, cmpfn e w = 0 :=
        fun h => hget ((set_get_isSome cmpfn hflip htrans b e hb).mpr h)
      refine ⟨h2.1, fun z => ?_⟩
      rw [h2.2 z, h1.2 z]
      simp only [inorder, List.mem_append, List.mem_cons]
      constructor
      · rintro ((h | ⟨y, hy, h0, hw⟩) | ⟨y, hy, h0, hw⟩)
        · exact Or.inl h
        · exact Or.inr ⟨y, Or.inl hy, h0, hw⟩
        · exact Or.inr ⟨y, Or.inr (Or.inr hy), h0, hw⟩
      · rintro (h | ⟨y, hyl | rfl | hyr, h0, hw⟩)
        · exact Or.inl (Or.inl h)
        · exact Or.inl (Or.inr ⟨y, hyl, h0, hw⟩)
        · exact absurd hw hnb
        · exact Or.inr ⟨y, hyr, h0, hw⟩

theorem rec_set_difference_spec (cmpfn : α → α → Int)
    (hflip : ∀ a b, cmpfn a b < 0 ↔ 0 < cmpfn b a)
    (htrans : ∀ a b c, cmpfn a b < 0 → cmpfn b c < 0 → cmpfn a c < 0)
    (hcongr : ∀ a b c, cmpfn a b = 0 → cmpfn a c = cmpfn b c) (b : SetT α)
    (hb : List.Pairwise (fun a b => cmpfn a b < 0) (inorder b.root)) :
    ∀ (t : Tree α) (c : SetT α),
      List.Pairwise (fun a b => cmpfn a b < 0) (inorder c.root) →
      List.Pairwise (fun a b => cmpfn a b < 0)
        (inorder (rec_set_difference cmpfn c b t).root) ∧
      (∀ z, (∃ y ∈ inorder (rec_set_difference cmpfn c b t).root, cmpfn z y = 0) ↔
        ((∃ y ∈ inorder c.root, cmpfn z y = 0) ∨
          ∃ y ∈ inorder t, cmpfn z y = 0 ∧ ¬ ∃ w ∈ inorder b.root, cmpfn y w = 0))
  | .nil, c, hc => by
    rw [rec_set_difference]
    exact ⟨hc, fun z => by simp [inorder]⟩
  | .node c0 l e r, c, hc => by
    rw [rec_set_difference]
    have h1 := rec_set_difference_spec cmpfn hflip htrans hcongr b hb l c hc
    have h2 := rec_set_difference_spec cmpfn hflip htrans hcongr b hb r _ h1.1
    by_cases hget : (set_get cmpfn b e).isNone
    · rw [if_pos hget]
      have h3 := set_insert_spec cmpfn hflip htrans hcongr _ e h2.1
      have hnb : ¬ ∃ w ∈ inorder b.root, cmpfn e w = 0 := by
        intro h
        have := (set_get_isSome cmpfn hflip htrans b e hb).mpr h
        rw [Option.isNone_iff_eq_none] at hget
        rw [hget] at this
        exact absurd this (by simp)
      constructor
      · rw [h3.1]
        exact linsert_pairwise cmpfn hflip htrans hcongr e _ h2.1
      · intro z
        rw [h3.1, linsert_classes cmpfn hflip hcongr e _ z, h2.2 z, h1.2 z]
        simp only [inorder, List.mem_append, List.mem_cons]
        constructor
        · rintro (h | (h | ⟨y, hy, h0, hw⟩) | ⟨y, hy, h0, hw⟩)
          · exact Or.inr ⟨e, Or.inr (Or.inl rfl), h, hnb⟩
          · exact Or.inl h
          · exact Or.inr ⟨y, Or.inl hy, h0, hw⟩
          · exact Or.inr ⟨y, Or.inr (Or.inr hy), h0, hw⟩
        · rintro (h | ⟨y, hyl | rfl | hyr, h0, hw⟩)
          · exact Or.inr (Or.inl (Or.inl h))
          · exact Or.inr (Or.inl (Or.inr ⟨y, hyl, h0, hw⟩))
          · exact Or.inl h0
          · exact Or.inr (Or.inr ⟨y, hyr, h0, hw⟩)
    · rw [if_neg hget]
      have hsb : ∃ w ∈ inorder b.root, cmpfn e w = 0 := by
        apply (set_get_isSome cmpfn hflip htrans b e hb).mp
        rcases hg : set_get cmpfn b e with _ | w
        · rw [hg] at hget
          exact absurd rfl hget
        · simp
      refine ⟨h2.1, fun z => ?_⟩
      rw [h2.2 z, h1.2 z]
      simp only [inorder, List.mem_append, List.mem_cons]
      constructor
      · rintro ((h | ⟨y, hy, h0, hw⟩) | ⟨y, hy, h0, hw⟩)
        · exact Or.inl h
        · exact Or.inr ⟨y, Or.inl hy, h0, hw⟩
        · exact Or.inr ⟨y, Or.inr (Or.inr hy), h0, hw⟩
      · rintro (h | ⟨y, hyl | rfl | hyr, h0, hw⟩)
        · exact Or.inl (Or.inl h)
        · exact Or.inl (Or.inr ⟨y, hyl, h0, hw⟩)
        · exact absurd hsb hw
        · exact Or.inr ⟨y, hyr, h0, hw⟩

end RBSet

namespace RBSet

variable {α : Type}

/-- C6: element-wise correctness of the set-algebra operations on well-formed
(sorted, same-comparator) sets: `set_union` holds exactly the elements found
in either input, `set_intersection` those found in both, `set_difference`
those found in the first but not the second.  Each result is a freshly built
set (`set_copy` copies node by node, all other nodes are newly inserted), and
in this value-level embedding the inputs are untouched by construction, which
is the only rendering of the no-mutation clause available without a heap
model. -/
theorem set_ops_membership (cmpfn : α → α → Int)
    (hflip : ∀ a b, cmpfn a b < 0 ↔ 0 < cmpfn b a)
    (htrans : ∀ a b c, cmpfn a b < 0 → cmpfn b c < 0 → cmpfn a c < 0)
    (hcongr : ∀ a b c, cmpfn a b = 0 → cmpfn a c = cmpfn b c)
    (a b : SetT α)
    (ha : List.Pairwise (fun x y => cmpfn x y < 0) (inorder a.root))
    (hb : List.Pairwise (fun x y => cmpfn x y < 0) (inorder b.root)) :
    (∀ x, (set_get cmpfn (set_union cmpfn a b) x).isSome ↔
      ((set_get cmpfn a x).isSome ∨ (set_get cmpfn b x).isSome)) ∧
    (∀ x, (set_get cmpfn (set_intersection cmpfn a b) x).isSome ↔
      ((set_get cmpfn a x).isSome ∧ (set_get cmpfn b x).isSome)) ∧
    (∀ x, (set_get cmpfn (set_difference cmpfn a b) x).isSome ↔
      ((set_get cmpfn a x).isSome ∧ ¬ (set_get cmpfn b x).isSome)) := by
  have hcreate : List.Pairwise (fun x y => cmpfn x y < 0) (inorder (set_create (α := α)).root) := by
    exact List.Pairwise.nil
  have hUnion : ∀ (p q : SetT α),
      List.Pairwise (fun x y => cmpfn x y < 0) (inorder p.root) →
      List.Pairwise (fun x y => cmpfn x y < 0) (inorder q.root) →
      ∀ x, (set_get cmpfn (rec_set_merge cmpfn (set_copy p) q.root) x).isSome ↔
        ((set_get cmpfn p x).isSome ∨ (set_get cmpfn q x).isSome) := by
    intro p q hp hq x
    rw [set_copy_eq]
    have hm := rec_set_merge_spec cmpfn hflip htrans hcongr q.root p hp
    rw [set_get_isSome cmpfn hflip htrans _ x hm.1, hm.2 x,
      set_get_isSome cmpfn hflip htrans p x hp, set_get_isSome cmpfn hflip htrans q x hq]
  have hInter : ∀ (p q : SetT α),
      List.Pairwise (fun x y => cmpfn x y < 0) (inorder p.root) →
      List.Pairwise (fun x y => cmpfn x y < 0) (inorder q.root) →
      ∀ x, (set_get cmpfn (rec_set_intersection cmpfn set_create q p.root) x).isSome ↔
        ((set_get cmpfn p x).isSome ∧ (set_get cmpfn q x).isSome) := by
    intro p q hp hq x
    have hi := rec_set_intersection_spec cmpfn hflip htrans hcongr q hq p.root set_create hcreate
    rw [set_get_isSome cmpfn hflip htrans _ x hi.1, hi.2 x,
      set_get_isSome cmpfn hflip htrans p x hp, set_get_isSome cmpfn hflip htrans q x hq]
    constructor
    · rintro (hfalse | ⟨y, hy, hzy, w, hw, hyw⟩)
      · simp [set_create, inorder] at hfalse
      · refine ⟨⟨y, hy, hzy⟩, ⟨w, hw, ?_⟩⟩
        rw [hcongr x y w hzy]
        exact hyw
    · rintro ⟨⟨y, hy, hzy⟩, ⟨w, hw, hzw⟩⟩
      refine Or.inr ⟨y, hy, hzy, w, hw, ?_⟩
      have hyx : cmpfn y x = 0 := (cmp_zero_symm hflip x y).mp hzy
      rw [hcongr y x w hyx]
      exact hzw
  have hDiff : ∀ x, (set_get cmpfn (set_difference cmpfn a b) x).isSome ↔
      ((set_get cmpfn a x).isSome ∧ ¬ (set_get cmpfn b x).isSome) := by
    intro x
    rw [set_difference]
    have hd := rec_set_difference_spec cmpfn hflip htrans hcongr b hb a.root set_create hcreate
    rw [set_get_isSome cmpfn hflip htrans _ x hd.1, hd.2 x,
      set_get_isSome cmpfn hflip htrans a x ha, set_get_isSome cmpfn hflip htrans b x hb]
    constructor
    · rintro (hfalse | ⟨y, hy, hzy, hnw⟩)
      · simp [set_create, inorder] at hfalse
      · refine ⟨⟨y, hy, hzy⟩, ?_⟩
        rintro ⟨w, hw, hzw⟩
        refine hnw ⟨w, hw, ?_⟩
        have hyx : cmpfn y x = 0 := (cmp_zero_symm hflip x y).mp hzy
        rw [hcongr y x w hyx]
        exact hzw
    · rintro ⟨⟨y, hy, hzy⟩, hnb⟩
      refine Or.inr ⟨y, hy, hzy, ?_⟩
      rintro ⟨w, hw, hyw⟩
      refine hnb ⟨w, hw, ?_⟩
      rw [hcongr x y w hzy]
      exact hyw
  refine ⟨?_, ?_, hDiff⟩
  · intro x
    rw [set_union]
    split
    · exact (hUnion b a hb ha x).trans or_comm
    · exact hUnion a b ha hb x
  · intro x
    rw [set_intersection]
    split
    · exact (hInter b a hb ha x).trans and_comm
    · exact hInter a b ha hb x

/-- Witness for C6: concrete integer sets {1, 2} and {2, 3}; 2 is in the
union via its membership in the second set. -/
theorem set_ops_membership_witness :
    (set_get (fun a b : Int => a - b)
      (set_union (fun a b : Int => a - b)
        (insertAll (fun a b : Int => a - b) [1, 2])
        (insertAll (fun a b : Int => a - b) [2, 3])) 2).isSome :=
  have hflip : ∀ a b : Int, (fun a b : Int => a - b) a b < 0 ↔
      0 < (fun a b : Int => a - b) b a := by
    intro a b
    show a - b < 0 ↔ 0 < b - a
    omega
  have htrans : ∀ a b c : Int, (fun a b : Int => a - b) a b < 0 →
      (fun a b : Int => a - b) b c < 0 → (fun a b : Int => a - b) a c < 0 := by
    intro a b c h1 h2
    have h1' : a - b < 0 := h1
    have h2' : b - c < 0 := h2
    show a - c < 0
    omega
  have hcongr : ∀ a b c : Int, (fun a b : Int => a - b) a b = 0 →
      (fun a b : Int => a - b) a c = (fun a b : Int => a - b) b c := by
    intro a b c h
    have h' : a - b = 0 := h
    show a - c = b - c
    omega
  ((set_ops_membership (fun a b : Int => a - b) hflip htrans hcongr
      (insertAll (fun a b : Int => a - b) [1, 2])
      (insertAll (fun a b : Int => a - b) [2, 3])
      (by decide) (by decide)).1 2).mpr (Or.inr (by decide))

end RBSet
